import Mathlib

/-!
# The Hack assembler (`projects/06/assembler.go`)

A shallow embedding of the two-pass assembler: the mnemonic tables, the line
parser `parse`, the first pass of `main` (label binding), and the encoder
`instruction.toBinary` driven by the second pass.

Conventions of the embedding.

* A Go `string` is a `List Char` (`Str`).  Every slice the source takes is cut at
  a position found by searching for an ASCII character, so counting characters
  instead of bytes gives the same pieces.
* The package-level variables `symbols` and `varAddr` are threaded explicitly.
* `halt` (print to standard error, exit with status 1) is the `error` case of
  `Except`; the message is the value carried.
* `uint16` arithmetic is arithmetic modulo `65536`.  An `int` has 64 bits.  The
  line counter `lineNum`, a `uint`, is a natural number: no input has `2 ^ 64`
  lines.
* Ranging over the Go map `destinations` visits its three entries in an order the
  language leaves unspecified and that may change from one loop to the next, so
  the parser takes the order of the visit as an argument.
-/

namespace Hack

/-- Go strings, as sequences of characters. -/
abbrev Str := List Char

/-! ## Data model (lines 13-48) -/

/-- Type `cmdType` with the constants `aCmd`, `cCmd`, `lCmd`. -/
inductive cmdType where
  | aCmd
  | cCmd
  | lCmd
  deriving DecidableEq, Repr

/-- Type `destType` is a bit set held in an integer; only the values built from
`aDest`, `dDest`, `mDest` with bitwise or occur, so a natural number is used. -/
abbrev destType := Nat

def aDest : destType := 1
def dDest : destType := 2
def mDest : destType := 4

/-- Type `binBool`. -/
abbrev binBool := Bool

structure compType where
  a : binBool
  c1 : binBool
  c2 : binBool
  c3 : binBool
  c4 : binBool
  c5 : binBool
  c6 : binBool
  deriving DecidableEq, Repr

structure jumpType where
  j1 : binBool
  j2 : binBool
  j3 : binBool
  deriving DecidableEq, Repr

structure instruction where
  cmd : cmdType
  symbol : Str
  dest : destType
  comp : compType
  jump : jumpType
  deriving DecidableEq, Repr

/-- The value of `&instruction{}`: every field at its zero value. -/
def zeroInstruction : instruction :=
  ⟨cmdType.aCmd, [], 0, ⟨false, false, false, false, false, false, false⟩, ⟨false, false, false⟩⟩

def t : binBool := true
def f : binBool := false

/-! ## Tables (lines 50-121) -/

/-- The map `destinations`, in the order the source lists its entries. -/
def destinations : List (Char × destType) :=
  [('A', aDest), ('M', mDest), ('D', dDest)]

/-- The map `commands`. -/
def commands : List (Str × compType) :=
  [ ("0".toList, ⟨f, t, f, t, f, t, f⟩),
    ("1".toList, ⟨f, t, t, t, t, t, t⟩),
    ("-1".toList, ⟨f, t, t, t, f, t, f⟩),
    ("D".toList, ⟨f, f, f, t, t, f, f⟩),
    ("A".toList, ⟨f, t, t, f, f, f, f⟩),
    ("!D".toList, ⟨f, f, f, t, t, f, t⟩),
    ("!A".toList, ⟨f, t, t, f, f, f, t⟩),
    ("-D".toList, ⟨f, f, f, t, t, t, t⟩),
    ("-A".toList, ⟨f, t, t, f, f, t, t⟩),
    ("D+1".toList, ⟨f, f, t, t, t, t, t⟩),
    ("A+1".toList, ⟨f, t, t, f, t, t, t⟩),
    ("D-1".toList, ⟨f, f, f, t, t, t, f⟩),
    ("A-1".toList, ⟨f, t, t, f, f, t, f⟩),
    ("D+A".toList, ⟨f, f, f, f, f, t, f⟩),
    ("D-A".toList, ⟨f, f, t, f, f, t, t⟩),
    ("A-D".toList, ⟨f, f, f, f, t, t, t⟩),
    ("D&A".toList, ⟨f, f, f, f, f, f, f⟩),
    ("D|A".toList, ⟨f, f, t, f, t, f, t⟩),
    ("M".toList, ⟨t, t, t, f, f, f, f⟩),
    ("!M".toList, ⟨t, t, t, f, f, f, t⟩),
    ("-M".toList, ⟨t, t, t, f, f, t, t⟩),
    ("M+1".toList, ⟨t, t, t, f, t, t, t⟩),
    ("M-1".toList, ⟨t, t, t, f, f, t, f⟩),
    ("D+M".toList, ⟨t, f, f, f, f, t, f⟩),
    ("D-M".toList, ⟨t, f, t, f, f, t, t⟩),
    ("M-D".toList, ⟨t, f, f, f, t, t, t⟩),
    ("D&M".toList, ⟨t, f, f, f, f, f, f⟩),
    ("D|M".toList, ⟨t, f, t, f, t, f, t⟩) ]

/-- The map `jumps`. -/
def jumps : List (Str × jumpType) :=
  [ ("JGT".toList, ⟨f, f, t⟩),
    ("JEQ".toList, ⟨f, t, f⟩),
    ("JGE".toList, ⟨f, t, t⟩),
    ("JLT".toList, ⟨t, f, f⟩),
    ("JNE".toList, ⟨t, f, t⟩),
    ("JLE".toList, ⟨t, t, f⟩),
    ("JMP".toList, ⟨t, t, t⟩) ]

/-- The initial value of the map `symbols`. -/
def symbols : List (Str × Nat) :=
  [ ("SP".toList, 0x0000),
    ("LCL".toList, 0x0001),
    ("ARG".toList, 0x0002),
    ("THIS".toList, 0x0003),
    ("THAT".toList, 0x0004),
    ("R0".toList, 0x0000),
    ("R1".toList, 0x0001),
    ("R2".toList, 0x0002),
    ("R3".toList, 0x0003),
    ("R4".toList, 0x0004),
    ("R5".toList, 0x0005),
    ("R6".toList, 0x0006),
    ("R7".toList, 0x0007),
    ("R8".toList, 0x0008),
    ("R9".toList, 0x0009),
    ("R10".toList, 0x000A),
    ("R11".toList, 0x000B),
    ("R12".toList, 0x000C),
    ("R13".toList, 0x000D),
    ("R14".toList, 0x000E),
    ("R15".toList, 0x000F),
    ("SCREEN".toList, 0x4000),
    ("KBD".toList, 0x6000) ]

/-! ## Go maps keyed by strings -/

/-- The lookup `v, ok := m[k]`: `some v` when `ok`, `none` otherwise. -/
def mapGet {β : Type} : List (Str × β) → Str → Option β
  | [], _ => none
  | (k', v) :: rest, k => if k' = k then some v else mapGet rest k

/-- The assignment `m[k] = v`; the new entry shadows any older one for `k`. -/
def mapSet {β : Type} (m : List (Str × β)) (k : Str) (v : β) : List (Str × β) :=
  (k, v) :: m

/-! ## The functions used from `strings`, `strconv` and `fmt` -/

/-- The constant `whitespace` of `parse`. -/
def whitespace : Str := [' ', '\t']

/-- Function `strings.HasPrefix`. -/
def HasPrefix : Str → Str → Bool
  | _, [] => true
  | [], _ :: _ => false
  | c :: cs, p :: ps => if c = p then HasPrefix cs ps else false

/-- Function `strings.Index`: the position of the first occurrence of `sep` in
`s`, or `-1`. -/
def Index : Str → Str → Int
  | [], sep => if sep = [] then 0 else -1
  | c :: cs, sep =>
    if HasPrefix (c :: cs) sep then 0
    else if Index cs sep < 0 then -1 else Index cs sep + 1

/-- Function `strings.Trim`: drop the leading and the trailing characters that
belong to `cutset`. -/
def Trim (s cutset : Str) : Str :=
  ((s.dropWhile (fun c => decide (c ∈ cutset))).reverse.dropWhile
    (fun c => decide (c ∈ cutset))).reverse

/-- Function `strings.ContainsAny`. -/
def ContainsAny (s chars : Str) : Bool :=
  s.any (fun c => decide (c ∈ chars))

/-- Function `strings.Count` for a separator of one character. -/
def Count (s : Str) (sep : Char) : Nat :=
  s.count sep

/-- Function `strings.Split` for a separator of one character: the pieces
between the occurrences of `sep`, one more than there are occurrences. -/
def Split : Str → Char → List Str
  | [], _ => [[]]
  | c :: cs, sep =>
    if c = sep then [] :: Split cs sep
    else
      match Split cs sep with
      | [] => [[c]]
      | piece :: pieces => (c :: piece) :: pieces

/-- The decimal digit a character stands for. -/
def digitVal (c : Char) : Nat := c.toNat - 48

def isDigit (c : Char) : Bool := decide (48 ≤ c.toNat ∧ c.toNat ≤ 57)

/-- The value of a string of decimal digits. -/
def digitsVal (ds : Str) : Nat :=
  ds.foldl (fun n c => n * 10 + digitVal c) 0

/-- Function `strconv.Atoi` where `int` has 64 bits: an optional sign, then one
or more decimal digits, and the value has to fit; `none` is a non-nil error. -/
def Atoi (s : Str) : Option Int :=
  let neg : Bool := decide (s.head? = some '-')
  let ds : Str := if s.head? = some '-' ∨ s.head? = some '+' then s.tail else s
  if ds = [] then none
  else if ds.all isDigit = false then none
  else if neg then
    (if digitsVal ds > 2 ^ 63 then none else some (-(digitsVal ds : Int)))
  else
    (if digitsVal ds ≥ 2 ^ 63 then none else some (digitsVal ds : Int))

/-- The binary digits of `n`, most significant first, without leading zeros;
`fuel` bounds the number of digits produced. -/
def binDigits : Nat → Nat → Str
  | 0, _ => []
  | fuel + 1, n =>
    if n < 2 then [if n = 0 then '0' else '1']
    else binDigits fuel (n / 2) ++ [if n % 2 = 0 then '0' else '1']

/-- Function `strconv.FormatUint(n, 2)`. -/
def formatBinary (n : Nat) : Str := binDigits (n + 1) n

/-- The verb `%015b` of `fmt.Sprintf` applied to an `int`: binary digits padded
with zeros on the left up to a width of 15, the sign of a negative number
counting for one column. -/
def sprintf015b (v : Int) : Str :=
  if v < 0 then
    '-' :: (List.replicate (14 - (formatBinary v.natAbs).length) '0' ++ formatBinary v.natAbs)
  else
    List.replicate (15 - (formatBinary v.toNat).length) '0' ++ formatBinary v.toNat

/-- The verb `%d` applied to an unsigned number. -/
def sprintfD (n : Nat) : Str := Nat.toDigits 10 n

/-! ## `String` methods (lines 123-135) -/

/-- Method `binBool.String`. -/
def binBool.String (b : binBool) : Str :=
  if b then ['1'] else ['0']

/-- Method `destType.String`. -/
def destType.String (d : destType) : Str :=
  if d ≠ 0 then ['1'] else ['0']

/-! ## The encoder (lines 173-196) -/

/-- The package-level variables that `toBinary` reads and writes. -/
structure Globals where
  symbols : List (Str × Nat)
  varAddr : Nat
  deriving DecidableEq, Repr

/-- Method `instruction.toBinary`, returning the word together with the
package-level variables as the call leaves them. -/
def toBinary (i : instruction) (g : Globals) : Str × Globals :=
  match i.cmd with
  | cmdType.aCmd =>
    match Atoi i.symbol with
    | some addr => ('0' :: sprintf015b addr, g)
    | none =>
      match mapGet g.symbols i.symbol with
      | some symAddr => ('0' :: sprintf015b (symAddr : Int), g)
      | none =>
        ('0' :: sprintf015b (g.varAddr : Int),
          ⟨mapSet g.symbols i.symbol g.varAddr, (g.varAddr + 1) % 65536⟩)
  | cmdType.cCmd =>
    ("111".toList
      ++ binBool.String i.comp.a ++ binBool.String i.comp.c1 ++ binBool.String i.comp.c2
      ++ binBool.String i.comp.c3 ++ binBool.String i.comp.c4 ++ binBool.String i.comp.c5
      ++ binBool.String i.comp.c6
      ++ destType.String (i.dest &&& aDest) ++ destType.String (i.dest &&& dDest)
      ++ destType.String (i.dest &&& mDest)
      ++ binBool.String i.jump.j1 ++ binBool.String i.jump.j2 ++ binBool.String i.jump.j3, g)
  | cmdType.lCmd => ([], g)

/-! ## The line parser (lines 254-344) -/

/-- The message `line <lineNum>: <text>` built by `fmt.Sprintf`. -/
def lineMsg (lineNum : Nat) (text : String) : Str :=
  "line ".toList ++ sprintfD lineNum ++ ": ".toList ++ text.toList

/-- The loop over `destinations` (lines 302-309), visiting the entries in the
given order: the destination bits collected so far and what is left of `dest`. -/
def destLoop (lineNum : Nat) : List (Char × destType) → destType → Str → Except Str (destType × Str)
  | [], d, dest => Except.ok (d, dest)
  | (k, v) :: rest, d, dest =>
    if Count dest k = 1 then destLoop lineNum rest (d ||| v) (Trim dest [k])
    else if Count dest k > 1 then
      Except.error ("line ".toList ++ sprintfD lineNum ++ ": destination %!s(int32=".toList
        ++ sprintfD k.toNat ++ ") specified multiple times".toList)
    else destLoop lineNum rest d (Trim dest [k])

/-- The first `if` of the default case (lines 299-314): the destination bits,
the computation text after `=`, and the rest of the line. -/
def parseDest (order : List (Char × destType)) (lineNum : Nat) (s : Str) :
    Except Str (destType × Str × Str) :=
  if (Split s '=').length > 1 then
    match destLoop lineNum order 0 (Trim ((Split s '=').getD 0 []) whitespace) with
    | Except.error e => Except.error e
    | Except.ok (d, dest) =>
      if dest.length > 0 then
        Except.error (lineMsg lineNum "unknown destination type specified")
      else
        Except.ok (d, Trim ((Split s '=').getD 1 []) whitespace,
          s.drop ((Split s '=').getD 0 []).length)
  else Except.ok (0, [], s)

/-- The second `if` of the default case (lines 316-328): the computation text
and the jump bits. -/
def parseJump (lineNum : Nat) (comp s : Str) : Except Str (Str × jumpType) :=
  if (Split s ';').length > 1 then
    if comp.length > 0 ∧ comp ≠ Trim ((Split s ';').getD 0 []) whitespace then
      Except.error (lineMsg lineNum "unable to determine computation")
    else
      match mapGet jumps (Trim ((Split s ';').getD 1 []) whitespace) with
      | none => Except.error (lineMsg lineNum "invalid jump type")
      | some j => Except.ok (Trim ((Split s ';').getD 0 []) whitespace, j)
  else Except.ok (comp, ⟨false, false, false⟩)

/-- The default case of the switch (lines 296-336). -/
def parseComputation (order : List (Char × destType)) (lineNum : Nat) (s : Str) :
    Except Str instruction :=
  match parseDest order lineNum s with
  | Except.error e => Except.error e
  | Except.ok (d, comp, s1) =>
    match parseJump lineNum comp s1 with
    | Except.error e => Except.error e
    | Except.ok (comp1, j) =>
      match mapGet commands (if comp1.length = 0 then s1 else comp1) with
      | none => Except.error (lineMsg lineNum "invalid label name")
      | some c => Except.ok ⟨cmdType.cCmd, [], d, c, j⟩

/-- The text of a line once its end-of-line comment is cut (lines 265-267). -/
def stripComment (cmd : Str) : Str :=
  if Index cmd "//".toList ≥ 0 then cmd.take (Index cmd "//".toList).toNat else cmd

/-- The body of the loop of `parse` for one line (lines 262-338): `ok none` when
the loop continues without sending an instruction, `ok (some i)` when it sends
`i`, `error m` when it halts with message `m`. -/
def parseLine (order : List (Char × destType)) (lineNum : Nat) (cmd : Str) :
    Except Str (Option instruction) :=
  let s := Trim (stripComment cmd) whitespace
  if s.length = 0 then Except.ok none
  else if HasPrefix s "@".toList then
    if (Trim (s.drop 1) whitespace).length = 0 then
      Except.error (lineMsg lineNum "address or label name expected")
    else if ContainsAny (Trim (s.drop 1) whitespace) whitespace then
      Except.error (lineMsg lineNum "invalid label name")
    else Except.ok (some ⟨cmdType.aCmd, Trim (s.drop 1) whitespace, 0, zeroInstruction.comp, zeroInstruction.jump⟩)
  else if HasPrefix s "(".toList then
    if Index s ")".toList = -1 then
      Except.error (lineMsg lineNum "closing \")\" expected")
    else if (Trim ((s.take (Index s ")".toList).toNat).drop 1) whitespace).length = 0 then
      Except.error (lineMsg lineNum "label name expected")
    else if ContainsAny (Trim ((s.take (Index s ")".toList).toNat).drop 1) whitespace) whitespace then
      Except.error (lineMsg lineNum "invalid label name")
    else
      Except.ok (some ⟨cmdType.lCmd, Trim ((s.take (Index s ")".toList).toNat).drop 1) whitespace, 0,
        zeroInstruction.comp, zeroInstruction.jump⟩)
  else
    match parseComputation order lineNum s with
    | Except.error e => Except.error e
    | Except.ok i => Except.ok (some i)

/-! ## `main` (lines 203-237) -/

/-- The local variables of the first pass, with the map `symbols`. -/
structure FirstPass where
  instrs : List instruction
  instrCount : Nat
  symbols : List (Str × Nat)
  deriving DecidableEq, Repr

/-- The message of line 226. -/
def dupMsg (sym : Str) : Str :=
  "Symbol (".toList ++ sym ++ ") already defined".toList

/-- The body of the first loop of `main` for one instruction (lines 219-229). -/
def firstPassStep (p : FirstPass) (instr : instruction) : Except Str FirstPass :=
  match instr.cmd with
  | cmdType.aCmd | cmdType.cCmd =>
    Except.ok ⟨p.instrs ++ [instr], (p.instrCount + 1) % 65536, p.symbols⟩
  | cmdType.lCmd =>
    match mapGet p.symbols instr.symbol with
    | some _ => Except.error (dupMsg instr.symbol)
    | none => Except.ok ⟨p.instrs, p.instrCount, mapSet p.symbols instr.symbol p.instrCount⟩

/-- The first loop of `main` run on a sequence of instructions. -/
def firstPass : List instruction → FirstPass → Except Str FirstPass
  | [], p => Except.ok p
  | instr :: rest, p =>
    match firstPassStep p instr with
    | Except.error e => Except.error e
    | Except.ok p1 => firstPass rest p1

/-- The first loop of `main` fed by `parse`: the lines are parsed one after the
other, `lineNum` counting the lines read so far, and an instruction that `parse`
sends goes through the body of the loop before the next line is looked at.  (The
goroutine of `parse` may already be at work on the next line when `main` handles
an instruction; when both would halt, this function reports the halt of the
earlier line.) -/
def firstLoop (orders : Nat → List (Char × destType)) :
    List Str → Nat → FirstPass → Except Str FirstPass
  | [], _, p => Except.ok p
  | cmd :: rest, lineNum, p =>
    match parseLine (orders (lineNum + 1)) (lineNum + 1) cmd with
    | Except.error e => Except.error e
    | Except.ok none => firstLoop orders rest (lineNum + 1) p
    | Except.ok (some instr) =>
      match firstPassStep p instr with
      | Except.error e => Except.error e
      | Except.ok p1 => firstLoop orders rest (lineNum + 1) p1

/-- The second loop of `main` (lines 233-236): the lines printed, and the
package-level variables at the end. -/
def secondPass : List instruction → Globals → List Str × Globals
  | [], g => ([], g)
  | instr :: rest, g =>
    ((toBinary instr g).1 :: (secondPass rest (toBinary instr g).2).1,
      (secondPass rest (toBinary instr g).2).2)

/-- What a run leaves behind: the lines on standard output and, when the run
halted, the message on standard error. -/
structure Run where
  stdout : List Str
  stderr : Option Str
  deriving DecidableEq, Repr

/-- Function `main` on the lines that `scanLines` delivers. -/
def main (orders : Nat → List (Char × destType)) (lines : List Str) : Run :=
  match firstLoop orders lines 0 ⟨[], 0, symbols⟩ with
  | Except.error e => ⟨[], some e⟩
  | Except.ok p => ⟨(secondPass p.instrs ⟨p.symbols, 0x0010⟩).1, none⟩

/-- The instructions that `parse` sends on its channel for the lines read from
line `lineNum + 1` on, or the message it halts with. -/
def parseFrom (orders : Nat → List (Char × destType)) : List Str → Nat → Except Str (List instruction)
  | [], _ => Except.ok []
  | cmd :: rest, lineNum =>
    match parseLine (orders (lineNum + 1)) (lineNum + 1) cmd with
    | Except.error e => Except.error e
    | Except.ok none => parseFrom orders rest (lineNum + 1)
    | Except.ok (some instr) =>
      match parseFrom orders rest (lineNum + 1) with
      | Except.error e => Except.error e
      | Except.ok instrs => Except.ok (instr :: instrs)

/-- The letters that `instruction.String` writes for a destination field
(lines 145-149): the keys of `destinations` whose bit is set. -/
def destLetters (d : destType) : List Char :=
  (destinations.filter (fun kv => decide (d &&& kv.2 ≠ 0))).map Prod.fst

/-! ## Vocabulary of the specification -/

/-- The six orders in which the three entries of `destinations` can be visited. -/
def destOrders : List (List (Char × destType)) :=
  [ [('A', aDest), ('M', mDest), ('D', dDest)],
    [('A', aDest), ('D', dDest), ('M', mDest)],
    [('M', mDest), ('A', aDest), ('D', dDest)],
    [('M', mDest), ('D', dDest), ('A', aDest)],
    [('D', dDest), ('A', aDest), ('M', mDest)],
    [('D', dDest), ('M', mDest), ('A', aDest)] ]

/-- Address and Computation instructions are the ones that emit a word. -/
def emittable (i : instruction) : Bool :=
  decide (i.cmd = cmdType.aCmd ∨ i.cmd = cmdType.cCmd)

/-- The character for one bit. -/
def bitChar (b : Bool) : Char := if b then '1' else '0'

/-- The binary representation of `n` on exactly 15 digits, most significant
first: digit `k` from the left is bit `14 - k` of `n`. -/
def binary15 (n : Nat) : Str :=
  (List.range 15).map (fun k => bitChar (decide (n / 2 ^ (14 - k) % 2 = 1)))

/-- A decimal literal: one or more decimal digits. -/
def isDecimalLiteral (s : Str) : Prop :=
  s ≠ [] ∧ s.all isDigit = true

instance (s : Str) : Decidable (isDecimalLiteral s) := by
  unfold isDecimalLiteral
  infer_instance

/-- An integer literal: a decimal literal, possibly after one sign. -/
def isIntLiteral (s : Str) : Prop :=
  isDecimalLiteral s ∨ isDecimalLiteral s.tail ∧ (s.head? = some '-' ∨ s.head? = some '+')

instance (s : Str) : Decidable (isIntLiteral s) := by
  unfold isIntLiteral
  infer_instance

/-- The symbols that the Label lines of a program declare. -/
def labels (prog : List instruction) : List Str :=
  (prog.filter (fun i => decide (i.cmd = cmdType.lCmd))).map instruction.symbol

/-- The symbols that the Address instructions of a program reference, in order. -/
def references (prog : List instruction) : List Str :=
  (prog.filter (fun i => decide (i.cmd = cmdType.aCmd))).map instruction.symbol

/-- The distinct elements of a list, in order of first occurrence. -/
def firstOccurrences : List Str → List Str
  | [] => []
  | s :: rest => s :: (firstOccurrences rest).filter (fun x => decide (x ≠ s))

/-- The variables of a program: the distinct symbols, in order of first
reference by an Address instruction, that `Atoi` rejects, that are not
predefined and that no Label line declares. -/
def variableSymbols (prog : List instruction) : List Str :=
  firstOccurrences ((references prog).filter (fun s =>
    decide (Atoi s = none ∧ mapGet symbols s = none ∧ s ∉ labels prog)))

/-- The digits of `n` on exactly `w` columns, lowest bit last. -/
def lowBits : Nat → Nat → Str
  | 0, _ => []
  | w + 1, n => lowBits w (n / 2) ++ [bitChar (decide (n % 2 = 1))]

/-- The instruction that `parse` sends for the line `0`. -/
def zeroLine : instruction :=
  ⟨cmdType.cCmd, [], 0, ⟨f, t, f, t, f, t, f⟩, ⟨false, false, false⟩⟩

/-- The Address instruction `@sym`, as `parse` sends it. -/
def addressOf (sym : Str) : instruction :=
  ⟨cmdType.aCmd, sym, 0, zeroInstruction.comp, zeroInstruction.jump⟩

/-- The Label instruction `(sym)`, as `parse` sends it. -/
def labelOf (sym : Str) : instruction :=
  ⟨cmdType.lCmd, sym, 0, zeroInstruction.comp, zeroInstruction.jump⟩

/-- The state in which `main` enters its first loop. -/
def firstPassInit : FirstPass := ⟨[], 0, symbols⟩

/-- The symbols for which the second pass allocates an address when it runs on
`instrs` from the table `tab`: the distinct symbols, in order of first reference
by an Address instruction, that `Atoi` rejects and that `tab` does not bind. -/
def newSymbols (tab : List (Str × Nat)) (instrs : List instruction) : List Str :=
  firstOccurrences ((references instrs).filter (fun s =>
    decide (Atoi s = none ∧ mapGet tab s = none)))

/-- A program of `n` Address instructions on `n` different symbols: `@x`,
`@xx`, `@xxx`, and so on. -/
def xVars (n : Nat) : List instruction :=
  (List.range n).map (fun m => addressOf (List.replicate (m + 1) 'x'))

/-- Equality of the results of the parser can be decided. -/
instance decEqExcept {α : Type} [DecidableEq α] : DecidableEq (Except Str α)
  | Except.ok a, Except.ok b =>
    if h : a = b then isTrue (by rw [h]) else isFalse (fun e => h (by cases e; rfl))
  | Except.error a, Except.error b =>
    if h : a = b then isTrue (by rw [h]) else isFalse (fun e => h (by cases e; rfl))
  | Except.ok _, Except.error _ => isFalse (fun e => by cases e)
  | Except.error _, Except.ok _ => isFalse (fun e => by cases e)

/-- The six arrangements of the three destination letters. -/
def threeLetterSpecs : List Str :=
  ["ADM".toList, "AMD".toList, "DAM".toList, "DMA".toList, "MAD".toList, "MDA".toList]

/-- The predefined symbols as the specification lists them: `SP`, `LCL`, `ARG`,
`THIS`, `THAT` at 0 to 4, `Rn` at `n` for `n` from 0 to 15, `SCREEN` at 16384
and `KBD` at 24576. -/
def predefinedSpec : List (Str × Nat) :=
  [("SP".toList, 0), ("LCL".toList, 1), ("ARG".toList, 2), ("THIS".toList, 3), ("THAT".toList, 4)]
    ++ (List.range 16).map (fun n => ('R' :: Nat.toDigits 10 n, n))
    ++ [("SCREEN".toList, 16384), ("KBD".toList, 24576)]

/-- The value that `toBinary` hands to `fmt.Sprintf` for an Address instruction
(lines 178-187): the integer read by `Atoi`, else the address bound to the
symbol, else the variable counter. -/
def addressValue (i : instruction) (g : Globals) : Int :=
  match Atoi i.symbol with
  | some addr => addr
  | none =>
    match mapGet g.symbols i.symbol with
    | some symAddr => (symAddr : Int)
    | none => (g.varAddr : Int)

/-- The message of line 306 for the destination letter `k`; the verb `%s`
applied to a rune prints `%!s(int32=<code>)`. -/
def multipleMsg (lineNum : Nat) (k : Char) : Str :=
  "line ".toList ++ sprintfD lineNum ++ ": destination %!s(int32=".toList
    ++ sprintfD k.toNat ++ ") specified multiple times".toList

/-! ## The line parser with the run-time checks of Go

The slice and index expressions of `parse` once more, each with the bounds check
that the Go run time performs; `none` stands for the run-time panic. -/

/-- The slice expression `s[lo:hi]`; it panics unless `0 ≤ lo ≤ hi ≤ len(s)`. -/
def sliceChecked (s : Str) (lo hi : Int) : Option Str :=
  if 0 ≤ lo ∧ lo ≤ hi ∧ hi ≤ (s.length : Int) then some ((s.take hi.toNat).drop lo.toNat)
  else none

/-- The index expression `tokens[i]`; it panics unless `i < len(tokens)`. -/
def indexChecked (tokens : List Str) (i : Nat) : Option Str :=
  tokens[i]?

/-- Lines 265-267 with the check of `cmd[:i]`. -/
def stripCommentChecked (cmd : Str) : Option Str :=
  if Index cmd "//".toList ≥ 0 then sliceChecked cmd 0 (Index cmd "//".toList) else some cmd

/-- Lines 299-314 with the checks of `tokens[0]`, `tokens[1]` and
`s[len(tokens[0]):]`. -/
def parseDestChecked (order : List (Char × destType)) (lineNum : Nat) (s : Str) :
    Option (Except Str (destType × Str × Str)) :=
  if (Split s '=').length > 1 then
    match indexChecked (Split s '=') 0, indexChecked (Split s '=') 1 with
    | some t0, some t1 =>
      match destLoop lineNum order 0 (Trim t0 whitespace) with
      | Except.error e => some (Except.error e)
      | Except.ok (d, dest) =>
        if dest.length > 0 then
          some (Except.error (lineMsg lineNum "unknown destination type specified"))
        else
          match sliceChecked s (t0.length : Int) (s.length : Int) with
          | some s1 => some (Except.ok (d, Trim t1 whitespace, s1))
          | none => none
    | _, _ => none
  else some (Except.ok (0, [], s))

/-- Lines 316-328 with the checks of `tokens[1]` and `tokens[0]`. -/
def parseJumpChecked (lineNum : Nat) (comp s : Str) : Option (Except Str (Str × jumpType)) :=
  if (Split s ';').length > 1 then
    match indexChecked (Split s ';') 1, indexChecked (Split s ';') 0 with
    | some t1, some t0 =>
      if comp.length > 0 ∧ comp ≠ Trim t0 whitespace then
        some (Except.error (lineMsg lineNum "unable to determine computation"))
      else
        match mapGet jumps (Trim t1 whitespace) with
        | none => some (Except.error (lineMsg lineNum "invalid jump type"))
        | some j => some (Except.ok (Trim t0 whitespace, j))
    | _, _ => none
  else some (Except.ok (comp, ⟨false, false, false⟩))

/-- Lines 296-336 with the checks. -/
def parseComputationChecked (order : List (Char × destType)) (lineNum : Nat) (s : Str) :
    Option (Except Str instruction) :=
  match parseDestChecked order lineNum s with
  | none => none
  | some (Except.error e) => some (Except.error e)
  | some (Except.ok (d, comp, s1)) =>
    match parseJumpChecked lineNum comp s1 with
    | none => none
    | some (Except.error e) => some (Except.error e)
    | some (Except.ok (comp1, j)) =>
      match mapGet commands (if comp1.length = 0 then s1 else comp1) with
      | none => some (Except.error (lineMsg lineNum "invalid label name"))
      | some c => some (Except.ok ⟨cmdType.cCmd, [], d, c, j⟩)

/-- The body of the loop of `parse` (lines 262-338) with the checks of `cmd[:i]`,
`s[1:]`, `s[1:i]` and those of the default case. -/
def parseLineChecked (order : List (Char × destType)) (lineNum : Nat) (cmd : Str) :
    Option (Except Str (Option instruction)) :=
  match stripCommentChecked cmd with
  | none => none
  | some c =>
    if (Trim c whitespace).length = 0 then some (Except.ok none)
    else if HasPrefix (Trim c whitespace) "@".toList then
      match sliceChecked (Trim c whitespace) 1 ((Trim c whitespace).length : Int) with
      | none => none
      | some r =>
        if (Trim r whitespace).length = 0 then
          some (Except.error (lineMsg lineNum "address or label name expected"))
        else if ContainsAny (Trim r whitespace) whitespace then
          some (Except.error (lineMsg lineNum "invalid label name"))
        else some (Except.ok (some
          ⟨cmdType.aCmd, Trim r whitespace, 0, zeroInstruction.comp, zeroInstruction.jump⟩))
    else if HasPrefix (Trim c whitespace) "(".toList then
      if Index (Trim c whitespace) ")".toList = -1 then
        some (Except.error (lineMsg lineNum "closing \")\" expected"))
      else
        match sliceChecked (Trim c whitespace) 1 (Index (Trim c whitespace) ")".toList) with
        | none => none
        | some r =>
          if (Trim r whitespace).length = 0 then
            some (Except.error (lineMsg lineNum "label name expected"))
          else if ContainsAny (Trim r whitespace) whitespace then
            some (Except.error (lineMsg lineNum "invalid label name"))
          else some (Except.ok (some
            ⟨cmdType.lCmd, Trim r whitespace, 0, zeroInstruction.comp, zeroInstruction.jump⟩))
    else
      match parseComputationChecked order lineNum (Trim c whitespace) with
      | none => none
      | some (Except.error e) => some (Except.error e)
      | some (Except.ok i) => some (Except.ok (some i))

/-! ## Orders of visit -/

theorem mem_destOrders_of_perm {order : List (Char × destType)}
    (h : order.Perm destinations) : order ∈ destOrders := by
  have hl : order.length = 3 := by simpa [destinations] using h.length_eq
  have hn : order.Nodup := h.nodup_iff.2 (by decide)
  match order, hl with
  | [x, y, z], _ =>
    have hx : x ∈ destinations := h.subset (by simp)
    have hy : y ∈ destinations := h.subset (by simp)
    have hz : z ∈ destinations := h.subset (by simp)
    simp only [destinations, List.mem_cons, List.mem_singleton, List.not_mem_nil, or_false] at hx hy hz
    rcases hx with rfl | rfl | rfl <;> rcases hy with rfl | rfl | rfl <;>
      rcases hz with rfl | rfl | rfl <;> first | (exfalso; revert hn; decide) | decide

theorem destOrders_cases {order : List (Char × destType)} (h : order.Perm destinations) :
    order = [('A', aDest), ('M', mDest), ('D', dDest)] ∨
    order = [('A', aDest), ('D', dDest), ('M', mDest)] ∨
    order = [('M', mDest), ('A', aDest), ('D', dDest)] ∨
    order = [('M', mDest), ('D', dDest), ('A', aDest)] ∨
    order = [('D', dDest), ('A', aDest), ('M', mDest)] ∨
    order = [('D', dDest), ('M', mDest), ('A', aDest)] := by
  simpa [destOrders] using mem_destOrders_of_perm h

/-! ## Facts about the string functions -/

theorem dropWhile_eq_self_of_forall {p : Char → Bool} {l : Str} (h : ∀ c ∈ l, p c = false) :
    l.dropWhile p = l := by
  cases l with
  | nil => rfl
  | cons c r => simp [List.dropWhile_cons, h c (List.mem_cons_self _ _)]

theorem Trim_eq_self {s cutset : Str} (h : ∀ c ∈ s, c ∉ cutset) : Trim s cutset = s := by
  have h1 : ∀ c ∈ s, (fun c => decide (c ∈ cutset)) c = false := fun c hc => by
    simpa using h c hc
  have h2 : ∀ c ∈ s.reverse, (fun c => decide (c ∈ cutset)) c = false := fun c hc =>
    h1 c (List.mem_reverse.1 hc)
  rw [Trim, dropWhile_eq_self_of_forall h1, dropWhile_eq_self_of_forall h2, List.reverse_reverse]

theorem Trim_sublist (s cutset : Str) : (Trim s cutset).Sublist s := by
  rw [Trim]
  have h1 := List.dropWhile_sublist (fun c => decide (c ∈ cutset)) (l := s)
  have h2 := List.dropWhile_sublist (fun c => decide (c ∈ cutset))
    (l := (s.dropWhile (fun c => decide (c ∈ cutset))).reverse)
  have h3 := List.reverse_sublist.2 h2
  rw [List.reverse_reverse] at h3
  exact h3.trans h1

theorem Index_of_not_mem {s : Str} (a b : Char) (h : a ∉ s) : Index s [a, b] = -1 := by
  induction s with
  | nil => simp [Index]
  | cons c r ih =>
    have hc : c ≠ a := fun e => h (e ▸ List.mem_cons_self _ _)
    have hr : a ∉ r := fun e => h (List.mem_cons_of_mem _ e)
    rw [Index, ih hr]
    simp [HasPrefix, hc]

theorem stripComment_eq_self {s : Str} (h : '/' ∉ s) : stripComment s = s := by
  have e : ("//".toList : Str) = ['/', '/'] := rfl
  rw [stripComment, e, Index_of_not_mem '/' '/' h]
  simp

theorem Split_ne_nil (s : Str) (sep : Char) : Split s sep ≠ [] := by
  induction s with
  | nil => simp [Split]
  | cons c r ih =>
    rw [Split]
    split
    · simp
    · split <;> simp

theorem Split_of_not_mem {s : Str} {sep : Char} (h : sep ∉ s) : Split s sep = [s] := by
  induction s with
  | nil => rfl
  | cons c r ih =>
    have hc : c ≠ sep := fun e => h (e ▸ List.mem_cons_self _ _)
    have hr : sep ∉ r := fun e => h (List.mem_cons_of_mem _ e)
    rw [Split, if_neg hc, ih hr]

theorem Split_append {a : Str} {sep : Char} (h : sep ∉ a) (b : Str) :
    Split (a ++ sep :: b) sep = a :: Split b sep := by
  induction a with
  | nil => simp [Split]
  | cons c r ih =>
    have hc : c ≠ sep := fun e => h (e ▸ List.mem_cons_self _ _)
    have hr : sep ∉ r := fun e => h (List.mem_cons_of_mem _ e)
    rw [List.cons_append, Split, if_neg hc, ih hr]

theorem destLoop_nodup (lineNum : Nat) (order : List (Char × destType)) (d : destType)
    (dest : Str) (h : dest.Nodup) : ∃ r, destLoop lineNum order d dest = Except.ok r := by
  induction order generalizing d dest with
  | nil => exact ⟨_, rfl⟩
  | cons kv rest ih =>
    obtain ⟨k, v⟩ := kv
    have hle : Count dest k ≤ 1 := List.nodup_iff_count_le_one.1 h k
    have hn : (Trim dest [k]).Nodup := h.sublist (Trim_sublist _ _)
    rw [destLoop]
    by_cases h1 : Count dest k = 1
    · rw [if_pos h1]; exact ih _ _ hn
    · rw [if_neg h1, if_neg (by omega)]; exact ih _ _ hn

/-! ## The line parser on `dest=comp;jump` -/

theorem parseLine_D_eq_A_JMP (order : List (Char × destType)) (lineNum : Nat)
    (h : order.Perm destinations) :
    parseLine order lineNum "D=A;JMP".toList =
      Except.error (lineMsg lineNum "unable to determine computation") := by
  rcases destOrders_cases h with rfl | rfl | rfl | rfl | rfl | rfl <;> rfl

theorem parseJump_conflict (lineNum : Nat) (c j : Str)
    (hc : ∀ x ∈ c, x ≠ '=' ∧ x ≠ ';' ∧ x ∉ whitespace) :
    parseJump lineNum (c ++ ';' :: j) ('=' :: (c ++ ';' :: j)) =
      Except.error (lineMsg lineNum "unable to determine computation") := by
  have hsemi : ';' ∉ ('=' :: c) := by
    intro hm
    rcases List.mem_cons.1 hm with e | hm
    · exact absurd e (by decide)
    · exact (hc _ hm).2.1 rfl
  have hsplit : Split ('=' :: (c ++ ';' :: j)) ';' = ('=' :: c) :: Split j ';' := by
    rw [← List.cons_append, Split_append hsemi]
  have hlen : (Split ('=' :: (c ++ ';' :: j)) ';').length > 1 := by
    rw [hsplit]
    have := Split_ne_nil j ';'
    cases hs : Split j ';' with
    | nil => exact absurd hs this
    | cons a b => simp
  have htrim : Trim ('=' :: c) whitespace = '=' :: c := by
    apply Trim_eq_self
    intro x hx
    rcases List.mem_cons.1 hx with rfl | hx
    · decide
    · exact (hc _ hx).2.2
  have hne : c ++ ';' :: j ≠ '=' :: c := by
    cases c with
    | nil => simp
    | cons x r =>
      have := (hc x (List.mem_cons_self _ _)).1
      simp [this]
  rw [parseJump, if_pos hlen, hsplit, List.getD_cons_zero, htrim, if_pos]
  exact ⟨by simp, hne⟩

theorem parseLine_dest_comp_jump (order : List (Char × destType)) (lineNum : Nat) (d c j : Str)
    (hd : d ≠ [] ∧ d.Nodup ∧ ∀ x ∈ d, x ∈ ['A', 'D', 'M'])
    (hc : ∀ x ∈ c, x ≠ '=' ∧ x ≠ ';' ∧ x ≠ '/' ∧ x ∉ whitespace)
    (hj : ∀ x ∈ j, x ≠ '=' ∧ x ≠ '/' ∧ x ∉ whitespace) :
    parseLine order lineNum (d ++ '=' :: (c ++ ';' :: j)) =
        Except.error (lineMsg lineNum "unable to determine computation")
    ∨ parseLine order lineNum (d ++ '=' :: (c ++ ';' :: j)) =
        Except.error (lineMsg lineNum "unknown destination type specified") := by
  obtain ⟨hne, hnd, hadm⟩ := hd
  have hdch : ∀ x ∈ d, x ≠ '=' ∧ x ≠ '/' ∧ x ∉ whitespace ∧ x ≠ '@' ∧ x ≠ '(' := by
    intro x hx
    have := hadm x hx
    simp only [List.mem_cons, List.mem_singleton, List.not_mem_nil, or_false] at this
    rcases this with rfl | rfl | rfl <;> decide
  have hall : ∀ x ∈ d ++ '=' :: (c ++ ';' :: j), x ≠ '/' ∧ x ∉ whitespace := by
    intro x hx
    simp only [List.mem_append, List.mem_cons] at hx
    rcases hx with hx | rfl | hx | rfl | hx
    · exact ⟨(hdch x hx).2.1, (hdch x hx).2.2.1⟩
    · decide
    · exact ⟨(hc x hx).2.2.1, (hc x hx).2.2.2⟩
    · decide
    · exact ⟨(hj x hx).2.1, (hj x hx).2.2⟩
  have hstrip : stripComment (d ++ '=' :: (c ++ ';' :: j)) = d ++ '=' :: (c ++ ';' :: j) :=
    stripComment_eq_self (fun hm => (hall _ hm).1 rfl)
  have htrim : Trim (d ++ '=' :: (c ++ ';' :: j)) whitespace = d ++ '=' :: (c ++ ';' :: j) :=
    Trim_eq_self (fun x hx => (hall x hx).2)
  have hsplit : Split (d ++ '=' :: (c ++ ';' :: j)) '=' = [d, c ++ ';' :: j] := by
    rw [Split_append (fun hm => (hdch _ hm).1 rfl), Split_of_not_mem]
    intro hm
    simp only [List.mem_append, List.mem_cons] at hm
    rcases hm with hm | e | hm
    · exact (hc _ hm).1 rfl
    · exact absurd e (by decide)
    · exact (hj _ hm).1 rfl
  have hdtrim : Trim d whitespace = d := Trim_eq_self (fun x hx => (hdch x hx).2.2.1)
  have hctrim : Trim (c ++ ';' :: j) whitespace = c ++ ';' :: j := by
    apply Trim_eq_self
    intro x hx
    simp only [List.mem_append, List.mem_cons] at hx
    rcases hx with hx | rfl | hx
    · exact (hc x hx).2.2.2
    · decide
    · exact (hj x hx).2.2
  obtain ⟨x, r, rfl⟩ : ∃ x r, d = x :: r := by
    cases d with
    | nil => exact absurd rfl hne
    | cons x r => exact ⟨x, r, rfl⟩
  have hx := hdch x (List.mem_cons_self _ _)
  obtain ⟨⟨dd, dest⟩, hloop⟩ := destLoop_nodup lineNum order 0 (x :: r) hnd
  have hdest : parseDest order lineNum (x :: r ++ '=' :: (c ++ ';' :: j)) =
      (if dest.length > 0 then
        Except.error (lineMsg lineNum "unknown destination type specified")
      else Except.ok (dd, c ++ ';' :: j, '=' :: (c ++ ';' :: j))) := by
    rw [parseDest, hsplit]
    simp only [List.length_cons, List.length_nil, List.getD_cons_zero, List.getD_cons_succ,
      hdtrim, hctrim, hloop]
    simp
  have hat : HasPrefix (x :: r ++ '=' :: (c ++ ';' :: j)) "@".toList = false := by
    have e : ("@".toList : Str) = ['@'] := rfl
    rw [e, List.cons_append, HasPrefix, if_neg hx.2.2.2.1]
  have hpar : HasPrefix (x :: r ++ '=' :: (c ++ ';' :: j)) "(".toList = false := by
    have e : ("(".toList : Str) = ['('] := rfl
    rw [e, List.cons_append, HasPrefix, if_neg hx.2.2.2.2]
  have hcomp : parseComputation order lineNum (x :: r ++ '=' :: (c ++ ';' :: j)) =
        Except.error (lineMsg lineNum "unable to determine computation")
      ∨ parseComputation order lineNum (x :: r ++ '=' :: (c ++ ';' :: j)) =
        Except.error (lineMsg lineNum "unknown destination type specified") := by
    rw [parseComputation, hdest]
    by_cases hl : dest.length > 0
    · right; rw [if_pos hl]
    · left
      rw [if_neg hl]
      simp only
      rw [parseJump_conflict lineNum c j (fun y hy => ⟨(hc y hy).1, (hc y hy).2.1, (hc y hy).2.2.2⟩)]
  have hlen : ¬ (x :: r ++ '=' :: (c ++ ';' :: j)).length = 0 := by simp
  rw [parseLine]
  simp only [hstrip, htrim, if_neg hlen, hat, hpar, Bool.false_eq_true, if_false]
  rcases hcomp with e | e <;> rw [e]
  · left; rfl
  · right; rfl


theorem commands_keys_plain :
    ∀ c ∈ commands.map Prod.fst, ∀ x ∈ c, x ≠ '=' ∧ x ≠ ';' ∧ x ≠ '/' ∧ x ∉ whitespace := by
  decide

theorem jumps_keys_plain :
    ∀ j ∈ jumps.map Prod.fst, ∀ x ∈ j, x ≠ '=' ∧ x ≠ '/' ∧ x ∉ whitespace := by
  decide

/-- C1 (the code departs from the claim).  For every destination spec `d` that
is a non-empty arrangement without repetition of the letters `A`, `D`, `M`,
every computation mnemonic `c` and every jump mnemonic `j` of the tables, `parse`
halts on the line `d=c;j`, with `unable to determine computation` or, when the
visit of `destinations` leaves a letter of `d` behind, with `unknown destination
type specified`; this holds for every order of visit and every line number. -/
theorem parse_dest_comp_jump_halts (order : List (Char × destType)) (lineNum : Nat) (d c j : Str)
    (hd : d ≠ [] ∧ d.Nodup ∧ ∀ x ∈ d, x ∈ ['A', 'D', 'M'])
    (hc : c ∈ commands.map Prod.fst) (hj : j ∈ jumps.map Prod.fst) :
    parseLine order lineNum (d ++ '=' :: (c ++ ';' :: j)) =
        Except.error (lineMsg lineNum "unable to determine computation")
    ∨ parseLine order lineNum (d ++ '=' :: (c ++ ';' :: j)) =
        Except.error (lineMsg lineNum "unknown destination type specified") :=
  parseLine_dest_comp_jump order lineNum d c j hd (commands_keys_plain c hc) (jumps_keys_plain j hj)

theorem parse_dest_comp_jump_halts_witness :
    parseLine destinations 1 "D=A;JMP".toList =
        Except.error (lineMsg 1 "unable to determine computation")
    ∨ parseLine destinations 1 "D=A;JMP".toList =
        Except.error (lineMsg 1 "unknown destination type specified") :=
  parse_dest_comp_jump_halts destinations 1 "D".toList "A".toList "JMP".toList
    ⟨by decide, by decide, by decide⟩ (by decide) (by decide)

/-! ## Lines without a jump -/

theorem stripComment_sublist (cmd : Str) : (stripComment cmd).Sublist cmd := by
  rw [stripComment]
  split
  · exact List.take_sublist _ _
  · exact List.Sublist.refl _

theorem parseDest_rest {order : List (Char × destType)} {lineNum : Nat} {s : Str}
    {d : destType} {comp s1 : Str} (h : parseDest order lineNum s = Except.ok (d, comp, s1)) :
    s1.Sublist s := by
  rw [parseDest] at h
  split at h
  · split at h
    · cases h
    · split at h
      · cases h
      · cases h; exact List.drop_sublist _ _
  · cases h; exact List.Sublist.refl _

theorem parseJump_no_semicolon {lineNum : Nat} {comp s : Str} (h : ';' ∉ s) :
    parseJump lineNum comp s = Except.ok (comp, ⟨false, false, false⟩) := by
  rw [parseJump, Split_of_not_mem h]
  simp

theorem parseLine_no_semicolon {order : List (Char × destType)} {lineNum : Nat} {cmd : Str}
    {i : instruction} (h : parseLine order lineNum cmd = Except.ok (some i)) (hs : ';' ∉ cmd) :
    i.jump = ⟨false, false, false⟩ := by
  have hsub : (Trim (stripComment cmd) whitespace).Sublist cmd :=
    (Trim_sublist _ _).trans (stripComment_sublist cmd)
  have hs' : ';' ∉ Trim (stripComment cmd) whitespace := fun hm => hs (hsub.subset hm)
  rw [parseLine] at h
  split at h
  · cases h
  · split at h
    · split at h
      · cases h
      · split at h
        · cases h
        · cases h; rfl
    · split at h
      · split at h
        · cases h
        · split at h
          · cases h
          · split at h
            · cases h
            · cases h; rfl
      · split at h
        · cases h
        · rename_i i' hc
          cases h
          rw [parseComputation] at hc
          split at hc
          · cases hc
          · rename_i d comp s1 hd
            have h1 : ';' ∉ s1 := fun hm => hs' ((parseDest_rest hd).subset hm)
            rw [parseJump_no_semicolon h1] at hc
            simp only at hc
            split at hc
            · cases hc
            · cases hc; rfl

/-! ## The encoder on Computation instructions -/


theorem mem_destLetters (d : destType) (x : Char) :
    x ∈ destLetters d ↔
      (x = 'A' ∧ d &&& aDest ≠ 0) ∨ (x = 'M' ∧ d &&& mDest ≠ 0) ∨ (x = 'D' ∧ d &&& dDest ≠ 0) := by
  simp only [destLetters, destinations, List.mem_map, List.mem_filter, List.mem_cons,
    List.mem_singleton, List.not_mem_nil, or_false, decide_eq_true_eq, Prod.exists]
  constructor
  · rintro ⟨a, b, ⟨h | h | h, hb⟩, rfl⟩ <;> simp only [Prod.mk.injEq] at h <;>
      obtain ⟨rfl, rfl⟩ := h <;> simp [hb]
  · rintro (⟨rfl, h⟩ | ⟨rfl, h⟩ | ⟨rfl, h⟩)
    · exact ⟨_, _, ⟨Or.inl rfl, h⟩, rfl⟩
    · exact ⟨_, _, ⟨Or.inr (Or.inl rfl), h⟩, rfl⟩
    · exact ⟨_, _, ⟨Or.inr (Or.inr rfl), h⟩, rfl⟩

theorem binBool_String_eq (b : binBool) : binBool.String b = [bitChar b] := by
  cases b <;> rfl

theorem destType_String_eq (d : destType) : destType.String d = [bitChar (decide (d ≠ 0))] := by
  by_cases h : d = 0 <;> simp [destType.String, bitChar, h]

/-- C2.  On a Computation instruction `toBinary` returns the 16 characters `111`,
the bits `a c1 c2 c3 c4 c5 c6` of the computation field, one bit for each of the
letters `A`, `D`, `M` in this order that is `1` exactly when the letter is in the
destination set, and the bits `j1 j2 j3` of the jump field; these are `000` when
the jump field is the zero value, which is what `parse` leaves in it for a line
without `;`.  The package-level variables are untouched. -/
theorem toBinary_computation (i : instruction) (g : Globals) (h : i.cmd = cmdType.cCmd) :
    toBinary i g =
      ([ '1', '1', '1',
         bitChar i.comp.a, bitChar i.comp.c1, bitChar i.comp.c2, bitChar i.comp.c3,
         bitChar i.comp.c4, bitChar i.comp.c5, bitChar i.comp.c6,
         bitChar (decide ('A' ∈ destLetters i.dest)), bitChar (decide ('D' ∈ destLetters i.dest)),
         bitChar (decide ('M' ∈ destLetters i.dest)),
         bitChar i.jump.j1, bitChar i.jump.j2, bitChar i.jump.j3 ], g)
    ∧ (toBinary i g).1.length = 16
    ∧ (i.jump = ⟨false, false, false⟩ → (toBinary i g).1.drop 13 = ['0', '0', '0'])
    ∧ (∀ (order : List (Char × destType)) (lineNum : Nat) (cmd : Str),
        parseLine order lineNum cmd = Except.ok (some i) → ';' ∉ cmd →
        (toBinary i g).1.drop 13 = ['0', '0', '0']) := by
  have hA : decide ('A' ∈ destLetters i.dest) = decide (i.dest &&& aDest ≠ 0) := by
    simp [mem_destLetters]
  have hD : decide ('D' ∈ destLetters i.dest) = decide (i.dest &&& dDest ≠ 0) := by
    simp [mem_destLetters]
  have hM : decide ('M' ∈ destLetters i.dest) = decide (i.dest &&& mDest ≠ 0) := by
    simp [mem_destLetters]
  have key : toBinary i g =
      ([ '1', '1', '1', bitChar i.comp.a, bitChar i.comp.c1, bitChar i.comp.c2, bitChar i.comp.c3,
         bitChar i.comp.c4, bitChar i.comp.c5, bitChar i.comp.c6,
         bitChar (decide (i.dest &&& aDest ≠ 0)), bitChar (decide (i.dest &&& dDest ≠ 0)),
         bitChar (decide (i.dest &&& mDest ≠ 0)),
         bitChar i.jump.j1, bitChar i.jump.j2, bitChar i.jump.j3 ], g) := by
    simp only [toBinary, h, binBool_String_eq, destType_String_eq]
    rfl
  have hzero : i.jump = ⟨false, false, false⟩ → (toBinary i g).1.drop 13 = ['0', '0', '0'] := by
    intro hj
    rw [key, hj]
    rfl
  refine ⟨?_, ?_, hzero, ?_⟩
  · rw [key, hA, hD, hM]
  · rw [key]; rfl
  · intro order lineNum cmd hp hs
    exact hzero (parseLine_no_semicolon hp hs)

theorem toBinary_computation_witness :
    toBinary ⟨cmdType.cCmd, [], 2, ⟨f, t, t, f, f, f, f⟩, ⟨false, false, false⟩⟩ ⟨symbols, 16⟩ =
      ("1110110000010000".toList, ⟨symbols, 16⟩) := by
  have h := (toBinary_computation ⟨cmdType.cCmd, [], 2, ⟨f, t, t, f, f, f, f⟩, ⟨false, false, false⟩⟩
    ⟨symbols, 16⟩ rfl).1
  rw [h]
  decide

/-! ## The end-to-end example -/

theorem parseLine_D_eq_A (order : List (Char × destType)) (n : Nat) (h : order.Perm destinations) :
    parseLine order n "D=A".toList =
      Except.ok (some ⟨cmdType.cCmd, [], 2, ⟨f, t, t, f, f, f, f⟩, ⟨false, false, false⟩⟩) := by
  rcases destOrders_cases h with rfl | rfl | rfl | rfl | rfl | rfl <;> rfl

theorem parseLine_D_eq_DA (order : List (Char × destType)) (n : Nat) (h : order.Perm destinations) :
    parseLine order n "D=D+A".toList =
      Except.ok (some ⟨cmdType.cCmd, [], 2, ⟨f, f, f, f, f, t, f⟩, ⟨false, false, false⟩⟩) := by
  rcases destOrders_cases h with rfl | rfl | rfl | rfl | rfl | rfl <;> rfl

theorem parseLine_M_eq_D (order : List (Char × destType)) (n : Nat) (h : order.Perm destinations) :
    parseLine order n "M=D".toList =
      Except.ok (some ⟨cmdType.cCmd, [], 4, ⟨f, f, f, t, t, f, f⟩, ⟨false, false, false⟩⟩) := by
  rcases destOrders_cases h with rfl | rfl | rfl | rfl | rfl | rfl <;> rfl

/-- C4.  The six lines `@2`, `D=A`, `@3`, `D=D+A`, `@0`, `M=D` are translated
without error into six words of 16 characters, the first `0000000000000010` and
the second `1110110000010000`, whatever the order in which each line visits
`destinations`. -/
theorem main_example (orders : Nat → List (Char × destType))
    (h : ∀ n, (orders n).Perm destinations) :
    main orders ["@2".toList, "D=A".toList, "@3".toList, "D=D+A".toList, "@0".toList, "M=D".toList] =
      ⟨["0000000000000010".toList, "1110110000010000".toList, "0000000000000011".toList,
        "1110000010010000".toList, "0000000000000000".toList, "1110001100001000".toList], none⟩ := by
  have e1 : parseLine (orders 1) 1 "@2".toList = Except.ok (some
      ⟨cmdType.aCmd, "2".toList, 0, zeroInstruction.comp, zeroInstruction.jump⟩) := rfl
  have e3 : parseLine (orders 3) 3 "@3".toList = Except.ok (some
      ⟨cmdType.aCmd, "3".toList, 0, zeroInstruction.comp, zeroInstruction.jump⟩) := rfl
  have e5 : parseLine (orders 5) 5 "@0".toList = Except.ok (some
      ⟨cmdType.aCmd, "0".toList, 0, zeroInstruction.comp, zeroInstruction.jump⟩) := rfl
  have e2 := parseLine_D_eq_A (orders 2) 2 (h 2)
  have e4 := parseLine_D_eq_DA (orders 4) 4 (h 4)
  have e6 := parseLine_M_eq_D (orders 6) 6 (h 6)
  simp only [main, firstLoop, Nat.reduceAdd, e1, e2, e3, e4, e5, e6]
  decide

theorem main_example_witness :
    (main (fun _ => destinations)
      ["@2".toList, "D=A".toList, "@3".toList, "D=D+A".toList, "@0".toList, "M=D".toList]).stdout.map
        List.length = [16, 16, 16, 16, 16, 16] := by
  rw [main_example (fun _ => destinations) (fun _ => List.Perm.refl _)]
  decide

/-! ## Destination specs of three letters -/

set_option maxRecDepth 100000 in
/-- C10 (the code departs from the claim).  On the line `AMD=1` the outcome of
`parse` depends on the order in which `destinations` is visited: visiting `M`
first, the letter in the middle of the spec, halts with `unknown destination
type specified`, while the order `A`, `M`, `D` gives the instruction with the
three destination bits set.  Every arrangement of the three letters has an
order of visit that halts and one that succeeds. -/
theorem parse_three_destinations_order :
    parseLine [('M', mDest), ('A', aDest), ('D', dDest)] 1 "AMD=1".toList =
        Except.error "line 1: unknown destination type specified".toList
    ∧ parseLine [('A', aDest), ('M', mDest), ('D', dDest)] 1 "AMD=1".toList =
        Except.ok (some ⟨cmdType.cCmd, [], 7, ⟨f, t, t, t, t, t, t⟩, ⟨false, false, false⟩⟩)
    ∧ ∀ d ∈ threeLetterSpecs,
        (∃ order ∈ destOrders, parseLine order 1 (d ++ "=1".toList) =
          Except.error "line 1: unknown destination type specified".toList)
        ∧ (∃ order ∈ destOrders, parseLine order 1 (d ++ "=1".toList) =
          Except.ok (some
            ⟨cmdType.cCmd, [], 7, ⟨f, t, t, t, t, t, t⟩, ⟨false, false, false⟩⟩)) := by
  refine ⟨by rfl, by rfl, ?_⟩
  decide

/-! ## Binary words of Address instructions -/



theorem lowBits_length (w n : Nat) : (lowBits w n).length = w := by
  induction w generalizing n with
  | zero => rfl
  | succ w ih => simp [lowBits, ih]

theorem lowBits_zero (w : Nat) : lowBits w 0 = List.replicate w '0' := by
  induction w with
  | zero => rfl
  | succ w ih =>
    simp only [lowBits, Nat.zero_div, ih]
    rw [List.replicate_succ', ]
    rfl

theorem lowBits_eq_map (w n : Nat) :
    lowBits w n = (List.range w).map (fun k => bitChar (decide (n / 2 ^ (w - 1 - k) % 2 = 1))) := by
  induction w generalizing n with
  | zero => rfl
  | succ w ih =>
    rw [lowBits, ih, List.range_succ, List.map_append]
    congr 1
    · apply List.map_congr_left
      intro k hk
      have hk' : k < w := List.mem_range.1 hk
      have e : w + 1 - 1 - k = (w - 1 - k) + 1 := by omega
      rw [e, pow_succ, Nat.mul_comm, Nat.div_div_eq_div_mul]
    · simp

theorem binary15_eq_lowBits (n : Nat) : binary15 n = lowBits 15 n := by
  rw [lowBits_eq_map]; rfl

theorem binDigits_small (fuel n : Nat) (h : n < 2) :
    binDigits (fuel + 1) n = [bitChar (decide (n % 2 = 1))] := by
  have : n = 0 ∨ n = 1 := by omega
  rcases this with rfl | rfl <;> rfl

theorem binDigits_pad (fuel : Nat) : ∀ (n w : Nat), n < fuel → n < 2 ^ w → 1 ≤ w →
    (binDigits fuel n).length ≤ w ∧
    List.replicate (w - (binDigits fuel n).length) '0' ++ binDigits fuel n = lowBits w n := by
  induction fuel with
  | zero => intro n w h; omega
  | succ fuel ih =>
    intro n w hf hw h1
    obtain ⟨w, rfl⟩ : ∃ v, w = v + 1 := ⟨w - 1, by omega⟩
    by_cases h2 : n < 2
    · rw [binDigits_small fuel n h2]
      have hz : n / 2 = 0 := by omega
      simp only [List.length_singleton, lowBits, hz, lowBits_zero]
      constructor
      · omega
      · simp
    · have hw' : n / 2 < 2 ^ w := by
        rw [pow_succ] at hw; omega
      have hw1 : 1 ≤ w := by
        rcases Nat.eq_zero_or_pos w with rfl | h
        · simp at hw; omega
        · exact h
      obtain ⟨hl, he⟩ := ih (n / 2) w (by omega) hw' hw1
      have hb : binDigits (fuel + 1) n = binDigits fuel (n / 2) ++ [bitChar (decide (n % 2 = 1))] := by
        rw [binDigits, if_neg h2]
        congr 2
        rcases Nat.mod_two_eq_zero_or_one n with h | h <;> simp [h, bitChar]
      rw [hb]
      simp only [List.length_append, List.length_singleton, lowBits]
      constructor
      · omega
      · have e : w + 1 - ((binDigits fuel (n / 2)).length + 1) = w - (binDigits fuel (n / 2)).length := by
          omega
        rw [e, ← he, List.append_assoc]

theorem sprintf015b_small (n : Nat) (h : n < 32768) : sprintf015b (n : Int) = binary15 n := by
  have hn : ¬ ((n : Int) < 0) := by omega
  rw [sprintf015b, if_neg hn, binary15_eq_lowBits]
  simp only [Int.toNat_ofNat, formatBinary]
  exact (binDigits_pad (n + 1) n 15 (by omega) (by omega) (by omega)).2


theorem Atoi_decimal (s : Str) (h : isDecimalLiteral s) (hv : digitsVal s < 2 ^ 63) :
    Atoi s = some (digitsVal s : Int) := by
  obtain ⟨hne, hall⟩ := h
  match s, hne with
  | c :: r, _ =>
    have hc : isDigit c = true := by
      simp only [List.all_cons, Bool.and_eq_true] at hall
      exact hall.1
    have h1 : c ≠ '-' := by rintro rfl; revert hc; decide
    have h2 : c ≠ '+' := by rintro rfl; revert hc; decide
    have hv' : ¬ (digitsVal (c :: r) ≥ 2 ^ 63) := by omega
    simp only [Atoi, List.head?_cons, Option.some.injEq, h1, h2, decide_False, or_self, if_false,
      hall, hv']
    simp

/-- C3.  On an Address instruction whose symbol is a decimal literal of value
`n` with `n ≤ 32767`, `toBinary` returns `0` followed by the 15 binary digits of
`n` and leaves the symbol table and the variable counter as they were. -/
theorem toBinary_decimal_literal (i : instruction) (g : Globals) (h : i.cmd = cmdType.aCmd)
    (hlit : isDecimalLiteral i.symbol) (hn : digitsVal i.symbol ≤ 32767) :
    toBinary i g = ('0' :: binary15 (digitsVal i.symbol), g) := by
  have ha := Atoi_decimal i.symbol hlit (by omega)
  simp only [toBinary, h, ha]
  rw [sprintf015b_small _ (by omega)]

theorem toBinary_decimal_literal_witness :
    toBinary ⟨cmdType.aCmd, "2".toList, 0, zeroInstruction.comp, zeroInstruction.jump⟩ ⟨symbols, 16⟩ =
      ("0000000000000010".toList, ⟨symbols, 16⟩) :=
  toBinary_decimal_literal ⟨cmdType.aCmd, "2".toList, 0, zeroInstruction.comp, zeroInstruction.jump⟩
    ⟨symbols, 16⟩ rfl ⟨by decide, by decide⟩ (by decide)

/-! ## The first pass -/

theorem emittable_iff (i : instruction) : emittable i = true ↔ i.cmd ≠ cmdType.lCmd := by
  cases h : i.cmd <;> simp [emittable, h]

theorem firstPassStep_emittable (p : FirstPass) (i : instruction) (h : emittable i = true) :
    firstPassStep p i = Except.ok ⟨p.instrs ++ [i], (p.instrCount + 1) % 65536, p.symbols⟩ := by
  cases hc : i.cmd <;> simp [emittable, hc] at h <;> simp [firstPassStep, hc]

theorem firstPassStep_label (p : FirstPass) (i : instruction) (h : i.cmd = cmdType.lCmd) :
    firstPassStep p i =
      match mapGet p.symbols i.symbol with
      | some _ => Except.error (dupMsg i.symbol)
      | none => Except.ok ⟨p.instrs, p.instrCount, mapSet p.symbols i.symbol p.instrCount⟩ := by
  simp [firstPassStep, h]

theorem firstPassStep_label_ok {p p1 : FirstPass} {i : instruction} (h : i.cmd = cmdType.lCmd)
    (hs : firstPassStep p i = Except.ok p1) :
    mapGet p.symbols i.symbol = none ∧
      p1 = ⟨p.instrs, p.instrCount, (i.symbol, p.instrCount) :: p.symbols⟩ := by
  rw [firstPassStep_label p i h] at hs
  cases hg : mapGet p.symbols i.symbol with
  | some v => rw [hg] at hs; cases hs
  | none =>
    rw [hg] at hs
    simp only [mapSet, Except.ok.injEq] at hs
    exact ⟨rfl, hs.symm⟩

theorem firstPass_cons_ok {i : instruction} {rest : List instruction} {p p2 : FirstPass}
    (h : firstPass (i :: rest) p = Except.ok p2) :
    ∃ p1, firstPassStep p i = Except.ok p1 ∧ firstPass rest p1 = Except.ok p2 := by
  rw [firstPass] at h
  cases hs : firstPassStep p i with
  | error e => rw [hs] at h; cases h
  | ok p1 => rw [hs] at h; exact ⟨p1, rfl, h⟩

theorem firstPass_append_ok {a b : List instruction} {p p2 : FirstPass}
    (h : firstPass (a ++ b) p = Except.ok p2) :
    ∃ p1, firstPass a p = Except.ok p1 ∧ firstPass b p1 = Except.ok p2 := by
  induction a generalizing p with
  | nil => exact ⟨p, rfl, h⟩
  | cons i rest ih =>
    obtain ⟨p1, h1, h2⟩ := firstPass_cons_ok (by simpa using h)
    obtain ⟨p3, h3, h4⟩ := ih h2
    refine ⟨p3, ?_, h4⟩
    rw [firstPass, h1]
    exact h3

theorem firstPassStep_keys {p p1 : FirstPass} {i : instruction}
    (hs : firstPassStep p i = Except.ok p1) (s : Str) :
    mapGet p1.symbols s = none ↔
      mapGet p.symbols s = none ∧ ¬ (i.cmd = cmdType.lCmd ∧ i.symbol = s) := by
  by_cases hl : i.cmd = cmdType.lCmd
  · obtain ⟨_, rfl⟩ := firstPassStep_label_ok hl hs
    by_cases he : i.symbol = s
    · simp [mapGet, he, hl]
    · simp [mapGet, he]
  · rw [firstPassStep_emittable p i ((emittable_iff i).2 hl)] at hs
    cases hs
    simp [hl]

theorem firstPassStep_mono {p p1 : FirstPass} {i : instruction}
    (hs : firstPassStep p i = Except.ok p1) {s : Str} {v : Nat}
    (h : mapGet p.symbols s = some v) : mapGet p1.symbols s = some v := by
  by_cases hl : i.cmd = cmdType.lCmd
  · obtain ⟨hn, rfl⟩ := firstPassStep_label_ok hl hs
    have he : i.symbol ≠ s := by
      rintro rfl
      rw [hn] at h; cases h
    simp [mapGet, he, h]
  · rw [firstPassStep_emittable p i ((emittable_iff i).2 hl)] at hs
    cases hs
    exact h

theorem firstPass_mono {prog : List instruction} {p p1 : FirstPass}
    (hs : firstPass prog p = Except.ok p1) {s : Str} {v : Nat}
    (h : mapGet p.symbols s = some v) : mapGet p1.symbols s = some v := by
  induction prog generalizing p with
  | nil => cases hs; exact h
  | cons i rest ih =>
    obtain ⟨p2, h1, h2⟩ := firstPass_cons_ok hs
    exact ih h2 (firstPassStep_mono h1 h)

theorem mem_labels {prog : List instruction} {s : Str} :
    s ∈ labels prog ↔ ∃ i ∈ prog, i.cmd = cmdType.lCmd ∧ i.symbol = s := by
  simp [labels, and_assoc]

theorem firstPass_keys {prog : List instruction} {p p1 : FirstPass}
    (hs : firstPass prog p = Except.ok p1) (s : Str) :
    mapGet p1.symbols s = none ↔ mapGet p.symbols s = none ∧ s ∉ labels prog := by
  induction prog generalizing p with
  | nil => cases hs; simp [labels]
  | cons i rest ih =>
    obtain ⟨p2, h1, h2⟩ := firstPass_cons_ok hs
    rw [ih h2, firstPassStep_keys h1, mem_labels, mem_labels]
    simp only [List.mem_cons, exists_eq_or_imp, not_or, and_assoc]

theorem firstPass_instrs {prog : List instruction} {p p1 : FirstPass}
    (hs : firstPass prog p = Except.ok p1) (hc : p.instrCount < 65536) :
    p1.instrs = p.instrs ++ prog.filter emittable ∧
      p1.instrCount = (p.instrCount + (prog.filter emittable).length) % 65536 := by
  induction prog generalizing p with
  | nil => cases hs; simp; omega
  | cons i rest ih =>
    obtain ⟨p2, h1, h2⟩ := firstPass_cons_ok hs
    by_cases hl : i.cmd = cmdType.lCmd
    · obtain ⟨_, rfl⟩ := firstPassStep_label_ok hl h1
      have he : emittable i = false := by
        rw [← Bool.not_eq_true, emittable_iff]; simp [hl]
      obtain ⟨e1, e2⟩ := ih h2 hc
      simp [List.filter_cons, he, e1, e2]
    · have he := (emittable_iff i).2 hl
      rw [firstPassStep_emittable p i he] at h1
      cases h1
      obtain ⟨e1, e2⟩ := ih h2 (Nat.mod_lt _ (by norm_num))
      simp only [List.filter_cons, he, if_true, List.length_cons, e1, e2]
      constructor
      · simp
      · omega

theorem firstPass_label_bound {pre post : List instruction} {lab : instruction} {p p1 : FirstPass}
    (hs : firstPass (pre ++ lab :: post) p = Except.ok p1) (hl : lab.cmd = cmdType.lCmd)
    (hc : p.instrCount < 65536) :
    mapGet p1.symbols lab.symbol =
      some ((p.instrCount + (pre.filter emittable).length) % 65536) := by
  obtain ⟨p2, h1, h2⟩ := firstPass_append_ok hs
  obtain ⟨p3, h3, h4⟩ := firstPass_cons_ok h2
  obtain ⟨_, rfl⟩ := firstPassStep_label_ok hl h3
  apply firstPass_mono h4
  simp [mapGet, (firstPass_instrs h1 hc).2]

theorem firstPass_append_eq {a : List instruction} {p p1 : FirstPass} (b : List instruction)
    (h : firstPass a p = Except.ok p1) : firstPass (a ++ b) p = firstPass b p1 := by
  induction a generalizing p with
  | nil => cases h; rfl
  | cons i rest ih =>
    obtain ⟨p2, h1, h2⟩ := firstPass_cons_ok h
    rw [List.cons_append, firstPass, h1]
    exact ih h2

theorem firstPass_all_emittable (l : List instruction) (p : FirstPass)
    (hl : ∀ i ∈ l, emittable i = true) (hc : p.instrCount < 65536) :
    firstPass l p = Except.ok ⟨p.instrs ++ l, (p.instrCount + l.length) % 65536, p.symbols⟩ := by
  induction l generalizing p with
  | nil =>
    have : p.instrCount % 65536 = p.instrCount := Nat.mod_eq_of_lt hc
    simp [firstPass, this]
  | cons i rest ih =>
    rw [firstPass, firstPassStep_emittable p i (hl i (List.mem_cons_self _ _))]
    simp only
    rw [ih _ (fun j hj => hl j (List.mem_cons_of_mem _ hj)) (Nat.mod_lt _ (by norm_num))]
    simp only [List.append_assoc, List.singleton_append, List.length_cons, Except.ok.injEq,
      FirstPass.mk.injEq, and_true, true_and]
    omega

theorem firstPass_replicate_zeroLine (n : Nat) (p : FirstPass) (hc : p.instrCount < 65536) :
    firstPass (List.replicate n zeroLine) p =
      Except.ok ⟨p.instrs ++ List.replicate n zeroLine, (p.instrCount + n) % 65536, p.symbols⟩ := by
  have h := firstPass_all_emittable (List.replicate n zeroLine) p
    (fun i hi => by rw [List.eq_of_mem_replicate hi]; rfl) hc
  rwa [List.length_replicate] at h

theorem filter_emittable_replicate (n : Nat) :
    (List.replicate n zeroLine).filter emittable = List.replicate n zeroLine :=
  List.filter_eq_self.2 (fun i hi => by rw [List.eq_of_mem_replicate hi]; rfl)

/-- C6, counterexample to the claim as stated.  A program of 65536 lines `0`
followed by the label line `(END)`: the first pass succeeds and binds `END` to
0, while 65536 Address/Computation instructions precede the label. -/
theorem firstPass_label_wraps :
    ∃ p, firstPass (List.replicate 65536 zeroLine ++ [labelOf "END".toList]) firstPassInit =
        Except.ok p
      ∧ mapGet p.symbols "END".toList = some 0
      ∧ ((List.replicate 65536 zeroLine).filter emittable).length = 65536 := by
  refine ⟨⟨List.replicate 65536 zeroLine, 0, ("END".toList, 0) :: symbols⟩, ?_, ?_, ?_⟩
  · rw [firstPass_append_eq _ (firstPass_replicate_zeroLine 65536 firstPassInit (by decide))]
    rfl
  · rfl
  · rw [filter_emittable_replicate, List.length_replicate]

theorem firstPass_spec_aux {prog : List instruction} {p : FirstPass}
    (h : firstPass prog firstPassInit = Except.ok p) :
    p.instrs = prog.filter emittable
    ∧ ∀ pre lab post, prog = pre ++ lab :: post → lab.cmd = cmdType.lCmd →
        mapGet p.symbols lab.symbol = some ((pre.filter emittable).length % 65536) := by
  constructor
  · simpa [firstPassInit] using (firstPass_instrs h (by decide)).1
  · intro pre lab post hp hl
    subst hp
    simpa [firstPassInit] using firstPass_label_bound h hl (by decide)

/-- C6, as amended.  When the first pass succeeds it returns the Address and
Computation instructions of the program in their order, and every Label symbol
is bound to the number of Address/Computation instructions that precede the
label, taken modulo 65536 (the counter `instrCount` is a `uint16`). -/
theorem firstPass_spec (prog : List instruction) (p : FirstPass)
    (h : firstPass prog firstPassInit = Except.ok p) :
    p.instrs = prog.filter emittable
    ∧ ∀ pre lab post, prog = pre ++ lab :: post → lab.cmd = cmdType.lCmd →
        mapGet p.symbols lab.symbol = some ((pre.filter emittable).length % 65536) :=
  firstPass_spec_aux h

theorem firstPass_spec_witness :
    mapGet (("LOOP".toList, 1) :: symbols) "LOOP".toList =
      some (([zeroLine].filter emittable).length % 65536) :=
  (firstPass_spec [zeroLine, labelOf "LOOP".toList, addressOf "LOOP".toList]
    ⟨[zeroLine, addressOf "LOOP".toList], 2, ("LOOP".toList, 1) :: symbols⟩ rfl).2
    [zeroLine] (labelOf "LOOP".toList) [addressOf "LOOP".toList] rfl rfl

/-! ## The second pass -/

theorem secondPass_length (instrs : List instruction) (g : Globals) :
    (secondPass instrs g).1.length = instrs.length := by
  induction instrs generalizing g with
  | nil => rfl
  | cons i rest ih => simp [secondPass, ih]

theorem toBinary_address_bound {i : instruction} {g : Globals} {v : Nat}
    (hc : i.cmd = cmdType.aCmd) (ha : Atoi i.symbol = none)
    (hb : mapGet g.symbols i.symbol = some v) :
    toBinary i g = ('0' :: sprintf015b (v : Int), g) := by
  simp [toBinary, hc, ha, hb]

theorem toBinary_address_fresh {i : instruction} {g : Globals}
    (hc : i.cmd = cmdType.aCmd) (ha : Atoi i.symbol = none)
    (hb : mapGet g.symbols i.symbol = none) :
    toBinary i g = ('0' :: sprintf015b (g.varAddr : Int),
      ⟨(i.symbol, g.varAddr) :: g.symbols, (g.varAddr + 1) % 65536⟩) := by
  simp [toBinary, hc, ha, hb, mapSet]

theorem toBinary_globals (i : instruction) (g : Globals) :
    (toBinary i g).2 = g ∨
      (i.cmd = cmdType.aCmd ∧ Atoi i.symbol = none ∧ mapGet g.symbols i.symbol = none ∧
        (toBinary i g).2 = ⟨(i.symbol, g.varAddr) :: g.symbols, (g.varAddr + 1) % 65536⟩) := by
  cases hc : i.cmd with
  | cCmd => left; simp [toBinary, hc]
  | lCmd => left; simp [toBinary, hc]
  | aCmd =>
    cases ha : Atoi i.symbol with
    | some a => left; simp [toBinary, hc, ha]
    | none =>
      cases hb : mapGet g.symbols i.symbol with
      | some v => left; simp [toBinary, hc, ha, hb]
      | none => right; simp [toBinary, hc, ha, hb, mapSet]

theorem toBinary_mono (i : instruction) (g : Globals) {s : Str} {v : Nat}
    (h : mapGet g.symbols s = some v) : mapGet (toBinary i g).2.symbols s = some v := by
  rcases toBinary_globals i g with e | ⟨_, _, hb, e⟩
  · rw [e]; exact h
  · rw [e]
    have hne : i.symbol ≠ s := by
      rintro rfl
      rw [hb] at h; cases h
    simp [mapGet, hne, h]

theorem secondPass_mono (instrs : List instruction) (g : Globals) {s : Str} {v : Nat}
    (h : mapGet g.symbols s = some v) : mapGet (secondPass instrs g).2.symbols s = some v := by
  induction instrs generalizing g with
  | nil => exact h
  | cons i rest ih => exact ih _ (toBinary_mono i g h)

theorem secondPass_bound (instrs : List instruction) (g : Globals) (s : Str) (v : Nat)
    (ha : Atoi s = none) (hb : mapGet g.symbols s = some v)
    (idx : Nat) (instr : instruction) (hi : instrs[idx]? = some instr)
    (hc : instr.cmd = cmdType.aCmd) (hs : instr.symbol = s) :
    (secondPass instrs g).1[idx]? = some ('0' :: sprintf015b (v : Int)) := by
  induction instrs generalizing g idx with
  | nil => simp at hi
  | cons i rest ih =>
    cases idx with
    | zero =>
      simp only [List.getElem?_cons_zero, Option.some.injEq] at hi
      subst hi
      subst hs
      simp [secondPass, toBinary_address_bound hc ha hb]
    | succ k =>
      simp only [List.getElem?_cons_succ] at hi
      simp only [secondPass, List.getElem?_cons_succ]
      exact ih _ (toBinary_mono i g hb) k hi


theorem Atoi_none_of_not_literal {s : Str} (h : ¬ isIntLiteral s) : Atoi s = none := by
  by_cases hs : s.head? = some '-' ∨ s.head? = some '+'
  · have hd : ¬ isDecimalLiteral s.tail := fun hd => h (Or.inr ⟨hd, hs⟩)
    simp only [isDecimalLiteral, ne_eq, not_and, Bool.not_eq_true] at hd
    simp only [Atoi, hs, if_true]
    by_cases he : s.tail = []
    · simp [he]
    · simp [he, hd he]
  · have hd : ¬ isDecimalLiteral s := fun hd => h (Or.inl hd)
    simp only [isDecimalLiteral, ne_eq, not_and, Bool.not_eq_true] at hd
    simp only [Atoi, hs, if_false]
    by_cases he : s = []
    · simp [he]
    · simp [he, hd he]

/-- C5, counterexample to the claim as stated.  The program `@END`, then 32767
lines `0`, then `(END)` translates without error, `END` is bound at program
counter 32768, and the word emitted for `@END` is `01000000000000000`: `0`
followed by sixteen digits, not by fifteen. -/
theorem label_reference_wide :
    ∃ p, firstPass (addressOf "END".toList ::
          (List.replicate 32767 zeroLine ++ [labelOf "END".toList])) firstPassInit = Except.ok p
      ∧ mapGet p.symbols "END".toList = some 32768
      ∧ (secondPass p.instrs ⟨p.symbols, 0x0010⟩).1.head? = some "01000000000000000".toList := by
  have hlen : (List.replicate 32767 zeroLine).length = 32767 := List.length_replicate _ _
  have hall : ∀ i ∈ List.replicate 32767 zeroLine, emittable i = true := fun i hi => by
    rw [List.eq_of_mem_replicate hi]; rfl
  generalize List.replicate 32767 zeroLine = rest at hlen hall ⊢
  refine ⟨⟨addressOf "END".toList :: rest, 32768, ("END".toList, 32768) :: symbols⟩, ?_, rfl, ?_⟩
  · have h := firstPass_all_emittable (addressOf "END".toList :: rest) firstPassInit
      (fun i hi => by
        rcases List.mem_cons.1 hi with rfl | hi
        · rfl
        · exact hall i hi) (by decide)
    rw [List.length_cons, hlen] at h
    rw [← List.cons_append, firstPass_append_eq _ h]
    rfl
  · simp only [secondPass, List.head?_cons]
    rfl

/-- C5, as amended.  In a program on which the first pass succeeds, take a
Label line whose symbol is not an integer literal and let `k` be the number of
Address/Computation instructions before it modulo 65536.  Every Address
instruction on that symbol, before or after the Label line, emits the same
word: `0` followed by `k` in binary, padded with zeros to at least 15 digits;
when fewer than 32768 instructions precede the label these are exactly the 15
binary digits of `k`. -/
theorem label_reference_word (prog : List instruction) (p : FirstPass)
    (h : firstPass prog firstPassInit = Except.ok p)
    (pre post : List instruction) (lab : instruction)
    (hp : prog = pre ++ lab :: post) (hl : lab.cmd = cmdType.lCmd)
    (hlit : ¬ isIntLiteral lab.symbol) :
    p.instrs = prog.filter emittable
    ∧ (∀ (idx : Nat) (instr : instruction), p.instrs[idx]? = some instr →
        instr.cmd = cmdType.aCmd →
        instr.symbol = lab.symbol →
        (secondPass p.instrs ⟨p.symbols, 0x0010⟩).1[idx]? =
          some ('0' :: sprintf015b (((pre.filter emittable).length % 65536 : Nat) : Int)))
    ∧ ((pre.filter emittable).length < 32768 →
        sprintf015b (((pre.filter emittable).length % 65536 : Nat) : Int) =
          binary15 (pre.filter emittable).length) := by
  obtain ⟨h1, h2⟩ := firstPass_spec_aux h
  refine ⟨h1, ?_, ?_⟩
  · intro idx instr hi hc hs
    exact secondPass_bound p.instrs ⟨p.symbols, 0x0010⟩ lab.symbol _
      (Atoi_none_of_not_literal hlit) (h2 pre lab post hp hl) idx instr hi hc hs
  · intro hk
    rw [Nat.mod_eq_of_lt (by omega)]
    exact sprintf015b_small _ hk


theorem label_reference_word_witness :
    (secondPass [zeroLine, addressOf "LOOP".toList]
        ⟨("LOOP".toList, 1) :: symbols, 0x0010⟩).1[1]? =
      some ('0' :: sprintf015b ((([zeroLine].filter emittable).length % 65536 : Nat) : Int)) :=
  (label_reference_word [zeroLine, labelOf "LOOP".toList, addressOf "LOOP".toList]
    ⟨[zeroLine, addressOf "LOOP".toList], 2, ("LOOP".toList, 1) :: symbols⟩ rfl
    [zeroLine] [addressOf "LOOP".toList] (labelOf "LOOP".toList) rfl rfl (by decide)).2.1
    1 (addressOf "LOOP".toList) rfl rfl rfl

/-! ## Variables -/

theorem mem_firstOccurrences {l : List Str} {x : Str} : x ∈ firstOccurrences l ↔ x ∈ l := by
  induction l with
  | nil => simp [firstOccurrences]
  | cons y r ih =>
    simp only [firstOccurrences, List.mem_cons, List.mem_filter, ih, decide_eq_true_eq]
    by_cases h : x = y <;> simp [h]

theorem firstOccurrences_filter (q : Str → Bool) (l : List Str) :
    firstOccurrences (l.filter q) = (firstOccurrences l).filter q := by
  induction l with
  | nil => rfl
  | cons y r ih =>
    by_cases hq : q y = true
    · simp only [List.filter_cons, hq, if_true, firstOccurrences, ih, List.filter_filter]
      congr 1
      apply List.filter_congr
      intro x _
      exact Bool.and_comm _ _
    · simp only [List.filter_cons, hq, firstOccurrences, List.filter_filter]
      simp only [Bool.false_eq_true, if_false]
      rw [ih]
      apply List.filter_congr
      intro x _
      by_cases hx : x = y
      · subst hx; simp [hq]
      · simp [hx]

theorem firstOccurrences_nodup_eq {l : List Str} (h : l.Nodup) : firstOccurrences l = l := by
  induction l with
  | nil => rfl
  | cons y r ih =>
    rw [List.nodup_cons] at h
    rw [firstOccurrences, ih h.2]
    congr 1
    apply List.filter_eq_self.2
    intro x hx
    have : x ≠ y := by rintro rfl; exact h.1 hx
    simp [this]


theorem references_cons (i : instruction) (rest : List instruction) :
    references (i :: rest) =
      if i.cmd = cmdType.aCmd then i.symbol :: references rest else references rest := by
  by_cases h : i.cmd = cmdType.aCmd <;> simp [references, List.filter_cons, h]

theorem mem_newSymbols {tab : List (Str × Nat)} {instrs : List instruction} {s : Str}
    (h : s ∈ newSymbols tab instrs) :
    s ∈ references instrs ∧ Atoi s = none ∧ mapGet tab s = none := by
  simpa [newSymbols, mem_firstOccurrences, List.mem_filter] using h

theorem newSymbols_cons_other {tab : List (Str × Nat)} {i : instruction} {rest : List instruction}
    (h : ¬ (i.cmd = cmdType.aCmd ∧ Atoi i.symbol = none ∧ mapGet tab i.symbol = none)) :
    newSymbols tab (i :: rest) = newSymbols tab rest := by
  by_cases hc : i.cmd = cmdType.aCmd
  · have : ¬ (Atoi i.symbol = none ∧ mapGet tab i.symbol = none) := fun h2 => h ⟨hc, h2⟩
    simp [newSymbols, references_cons, hc, List.filter_cons, this]
  · simp [newSymbols, references_cons, hc]

theorem newSymbols_cons_fresh {tab : List (Str × Nat)} {i : instruction} {rest : List instruction}
    (hc : i.cmd = cmdType.aCmd) (ha : Atoi i.symbol = none) (hb : mapGet tab i.symbol = none)
    (v : Nat) :
    newSymbols tab (i :: rest) = i.symbol :: newSymbols ((i.symbol, v) :: tab) rest := by
  simp only [newSymbols, references_cons, hc, if_true, List.filter_cons, ha, hb, and_self,
    decide_True, firstOccurrences]
  congr 1
  rw [← firstOccurrences_filter, List.filter_filter]
  congr 1
  apply List.filter_congr
  intro x _
  by_cases hx : i.symbol = x
  · subst hx; simp [mapGet]
  · have hx' : x ≠ i.symbol := fun e => hx e.symm
    simp [mapGet, hx, hx']

theorem secondPass_fresh (instrs : List instruction) (g : Globals) (hv : g.varAddr < 65536)
    (j : Nat) (s : Str) (hj : (newSymbols g.symbols instrs)[j]? = some s) :
    (∀ (idx : Nat) (instr : instruction), instrs[idx]? = some instr →
        instr.cmd = cmdType.aCmd → instr.symbol = s →
        (secondPass instrs g).1[idx]? =
          some ('0' :: sprintf015b (((g.varAddr + j) % 65536 : Nat) : Int)))
    ∧ mapGet (secondPass instrs g).2.symbols s = some ((g.varAddr + j) % 65536) := by
  induction instrs generalizing g j with
  | nil => simp [newSymbols, references, firstOccurrences] at hj
  | cons i rest ih =>
    by_cases hA : i.cmd = cmdType.aCmd ∧ Atoi i.symbol = none ∧ mapGet g.symbols i.symbol = none
    · obtain ⟨hc, ha, hb⟩ := hA
      have hstep := toBinary_address_fresh hc ha hb
      rw [newSymbols_cons_fresh hc ha hb g.varAddr] at hj
      cases j with
      | zero =>
        simp only [List.getElem?_cons_zero, Option.some.injEq] at hj
        subst hj
        have hbound : mapGet (toBinary i g).2.symbols i.symbol = some g.varAddr := by
          rw [hstep]; simp [mapGet]
        have hmod : (g.varAddr + 0) % 65536 = g.varAddr := by
          rw [Nat.add_zero, Nat.mod_eq_of_lt hv]
        rw [hmod]
        constructor
        · intro idx instr hi hcmd hs
          cases idx with
          | zero => simp [secondPass, hstep]
          | succ k =>
            simp only [List.getElem?_cons_succ] at hi
            simp only [secondPass, List.getElem?_cons_succ]
            exact secondPass_bound rest _ i.symbol g.varAddr ha hbound k instr hi hcmd hs
        · simp only [secondPass]
          exact secondPass_mono rest _ hbound
      | succ j' =>
        simp only [List.getElem?_cons_succ] at hj
        have hv' : (toBinary i g).2.varAddr < 65536 := by
          rw [hstep]; exact Nat.mod_lt _ (by norm_num)
        have hj' : (newSymbols (toBinary i g).2.symbols rest)[j']? = some s := by
          rw [hstep]; exact hj
        obtain ⟨ih1, ih2⟩ := ih _ hv' j' hj'
        have hval : ((toBinary i g).2.varAddr + j') % 65536 = (g.varAddr + (j' + 1)) % 65536 := by
          rw [hstep]; simp only; omega
        rw [hval] at ih1 ih2
        have hne : i.symbol ≠ s := by
          have hm := (mem_newSymbols (List.getElem?_mem hj)).2.2
          intro e
          rw [← e] at hm
          simp [mapGet] at hm
        constructor
        · intro idx instr hi hcmd hs
          cases idx with
          | zero =>
            simp only [List.getElem?_cons_zero, Option.some.injEq] at hi
            subst hi
            exact absurd hs hne
          | succ k =>
            simp only [List.getElem?_cons_succ] at hi
            simp only [secondPass, List.getElem?_cons_succ]
            exact ih1 k instr hi hcmd hs
        · simp only [secondPass]
          exact ih2
    · have hg : (toBinary i g).2 = g := by
        rcases toBinary_globals i g with e | ⟨h1, h2, h3, _⟩
        · exact e
        · exact absurd ⟨h1, h2, h3⟩ hA
      rw [newSymbols_cons_other hA] at hj
      obtain ⟨ih1, ih2⟩ := ih g hv j hj
      constructor
      · intro idx instr hi hcmd hs
        cases idx with
        | zero =>
          simp only [List.getElem?_cons_zero, Option.some.injEq] at hi
          subst hi
          have hm := mem_newSymbols (List.getElem?_mem hj)
          exact absurd ⟨hcmd, hs ▸ hm.2.1, hs ▸ hm.2.2⟩ hA
        | succ k =>
          simp only [List.getElem?_cons_succ] at hi
          simp only [secondPass, List.getElem?_cons_succ, hg]
          exact ih1 k instr hi hcmd hs
      · simp only [secondPass, hg]
        exact ih2


theorem references_filter_emittable (prog : List instruction) :
    references (prog.filter emittable) = references prog := by
  simp only [references, List.filter_filter]
  congr 1
  apply List.filter_congr
  intro i _
  cases h : i.cmd <;> simp [emittable, h]

theorem variableSymbols_eq {prog : List instruction} {p : FirstPass}
    (h : firstPass prog firstPassInit = Except.ok p) :
    variableSymbols prog = newSymbols p.symbols p.instrs := by
  have hi : p.instrs = prog.filter emittable := (firstPass_spec_aux h).1
  rw [variableSymbols, newSymbols, hi, references_filter_emittable]
  congr 1
  apply List.filter_congr
  intro s _
  have hk := firstPass_keys h s
  simp only [firstPassInit] at hk
  by_cases ha : Atoi s = none
  · by_cases hb : mapGet p.symbols s = none
    · simp [ha, hb, hk.1 hb]
    · have : ¬ (mapGet symbols s = none ∧ s ∉ labels prog) := fun h2 => hb (hk.2 h2)
      simp [ha, hb, this]
  · simp [ha]

theorem variable_address_aux {prog : List instruction} {p : FirstPass}
    (h : firstPass prog firstPassInit = Except.ok p) (j : Nat) (s : Str)
    (hs : (variableSymbols prog)[j]? = some s) :
    (∀ (idx : Nat) (instr : instruction), p.instrs[idx]? = some instr →
        instr.cmd = cmdType.aCmd → instr.symbol = s →
        (secondPass p.instrs ⟨p.symbols, 0x0010⟩).1[idx]? =
          some ('0' :: sprintf015b (((16 + j) % 65536 : Nat) : Int)))
    ∧ mapGet (secondPass p.instrs ⟨p.symbols, 0x0010⟩).2.symbols s = some ((16 + j) % 65536) := by
  rw [variableSymbols_eq h] at hs
  exact secondPass_fresh p.instrs ⟨p.symbols, 0x0010⟩ (by simp) j s hs

/-- C7, as amended.  For `k ≥ 1`, the `k`-th distinct symbol, in order of first
reference by an Address instruction, that `strconv.Atoi` rejects, that is not
predefined and that no Label line declares, resolves to `(16 + (k - 1)) mod
65536`: every Address instruction on it emits `0` followed by that address in
binary, and the final table binds it to that address. -/
theorem variable_address (prog : List instruction) (p : FirstPass)
    (h : firstPass prog firstPassInit = Except.ok p) (k : Nat) (hk : 1 ≤ k) (s : Str)
    (hs : (variableSymbols prog)[k - 1]? = some s) :
    (∀ (idx : Nat) (instr : instruction), p.instrs[idx]? = some instr →
        instr.cmd = cmdType.aCmd → instr.symbol = s →
        (secondPass p.instrs ⟨p.symbols, 0x0010⟩).1[idx]? =
          some ('0' :: sprintf015b (((16 + (k - 1)) % 65536 : Nat) : Int)))
    ∧ mapGet (secondPass p.instrs ⟨p.symbols, 0x0010⟩).2.symbols s =
        some ((16 + (k - 1)) % 65536) := by
  obtain ⟨j, rfl⟩ : ∃ j, k = j + 1 := ⟨k - 1, by omega⟩
  exact variable_address_aux h j s hs

theorem variable_address_witness :
    (secondPass [addressOf "i".toList, zeroLine, addressOf "sum".toList, addressOf "i".toList]
        ⟨symbols, 0x0010⟩).1[2]? = some "0000000000010001".toList :=
  (variable_address
    [addressOf "i".toList, zeroLine, addressOf "sum".toList, addressOf "i".toList]
    ⟨[addressOf "i".toList, zeroLine, addressOf "sum".toList, addressOf "i".toList], 4, symbols⟩
    rfl 2 (by decide) "sum".toList (by decide)).1 2 (addressOf "sum".toList) rfl rfl rfl

theorem Atoi_x (r : Str) : Atoi ('x' :: r) = none := by
  simp only [Atoi, List.head?_cons, Option.some.injEq]
  have h1 : ¬ ('x' = '-' ∨ 'x' = '+') := by decide
  have h2 : ('x' :: r).all isDigit = false := by
    have : isDigit 'x' = false := by decide
    simp [this]
  simp [h1, h2]

theorem mapGet_symbols_x (r : Str) : mapGet symbols ('x' :: r) = none := rfl

theorem xVars_emittable (n : Nat) : ∀ i ∈ xVars n, emittable i = true := by
  intro i hi
  simp only [xVars, List.mem_map] at hi
  obtain ⟨m, _, rfl⟩ := hi
  rfl

theorem firstPass_xVars (n : Nat) :
    firstPass (xVars n) firstPassInit = Except.ok ⟨xVars n, n % 65536, symbols⟩ := by
  have h := firstPass_all_emittable (xVars n) firstPassInit (xVars_emittable n) (by decide)
  simpa [firstPassInit, xVars] using h

theorem newSymbols_xVars (n : Nat) :
    newSymbols symbols (xVars n) = (List.range n).map (fun m => List.replicate (m + 1) 'x') := by
  have hr : references (xVars n) = (List.range n).map (fun m => List.replicate (m + 1) 'x') := by
    rw [references, List.filter_eq_self.2]
    · simp [xVars, addressOf, Function.comp_def]
    · intro i hi
      simp only [xVars, List.mem_map] at hi
      obtain ⟨m, _, rfl⟩ := hi
      rfl
  rw [newSymbols, hr, List.filter_eq_self.2, firstOccurrences_nodup_eq]
  · apply List.Nodup.map _ (List.nodup_range n)
    intro a b hab
    have := congrArg List.length hab
    simpa using this
  · intro s hs
    simp only [List.mem_map] at hs
    obtain ⟨m, _, rfl⟩ := hs
    simp [List.replicate_succ, Atoi_x, mapGet_symbols_x]

theorem secondPass_xVars (n j : Nat) (hj : j < n) :
    (secondPass (xVars n) ⟨symbols, 0x0010⟩).1[j]? =
      some ('0' :: sprintf015b (((16 + j) % 65536 : Nat) : Int)) := by
  have hs : (newSymbols symbols (xVars n))[j]? = some (List.replicate (j + 1) 'x') := by
    rw [newSymbols_xVars, List.getElem?_map, List.getElem?_range hj]
    rfl
  have hi : (xVars n)[j]? = some (addressOf (List.replicate (j + 1) 'x')) := by
    rw [xVars, List.getElem?_map, List.getElem?_range hj]
    rfl
  exact (secondPass_fresh (xVars n) ⟨symbols, 0x0010⟩ (by decide) j _ hs).1 j _ hi rfl rfl

set_option maxRecDepth 8192 in
/-- C7, counterexample to the claim as stated.  First, on the lines
`@99999999999999999999`, `@x` the numeric symbol is too large for `Atoi`, so it
is allocated address 16 and `x`, the first symbol of the program that is not
numeric, predefined or a label, resolves to 17.  Second, in the program of the
65521 Address instructions `@x`, `@xx`, ... on different symbols, the 65521st
of them resolves to 0 and not to 16 + 65520, the counter `varAddr` being a
`uint16`. -/
theorem variable_counter_wraps :
    main (fun _ => destinations) ["@99999999999999999999".toList, "@x".toList] =
        ⟨["0000000000010000".toList, "0000000000010001".toList], none⟩
    ∧ firstPass (xVars 65521) firstPassInit = Except.ok ⟨xVars 65521, 65521, symbols⟩
    ∧ (variableSymbols (xVars 65521))[65520]? = some (List.replicate 65521 'x')
    ∧ (secondPass (xVars 65521) ⟨symbols, 0x0010⟩).1[65520]? =
        some "0000000000000000".toList := by
  refine ⟨by rfl, firstPass_xVars 65521, ?_, ?_⟩
  · rw [variableSymbols_eq (firstPass_xVars 65521), newSymbols_xVars, List.getElem?_map,
      List.getElem?_range (by decide)]
    rfl
  · rw [secondPass_xVars 65521 65520 (by decide)]
    decide


/-! ## The two loops of `main` together -/

theorem firstLoop_of_parseFrom {orders : Nat → List (Char × destType)} {lines : List Str}
    {n : Nat} {prog : List instruction} (h : parseFrom orders lines n = Except.ok prog)
    (p : FirstPass) : firstLoop orders lines n p = firstPass prog p := by
  induction lines generalizing n p prog with
  | nil => cases h; rfl
  | cons cmd rest ih =>
    rw [parseFrom] at h
    rw [firstLoop]
    cases hl : parseLine (orders (n + 1)) (n + 1) cmd with
    | error e => rw [hl] at h; cases h
    | ok r =>
      rw [hl] at h
      cases r with
      | none => exact ih h p
      | some instr =>
        simp only at h ⊢
        cases hr : parseFrom orders rest (n + 1) with
        | error e => rw [hr] at h; cases h
        | ok instrs =>
          rw [hr] at h
          cases h
          rw [firstPass]
          cases hs : firstPassStep p instr with
          | error e => rfl
          | ok p1 => exact ih hr p1

theorem parseFrom_of_firstLoop {orders : Nat → List (Char × destType)} {lines : List Str}
    {n : Nat} {p p1 : FirstPass} (h : firstLoop orders lines n p = Except.ok p1) :
    ∃ prog, parseFrom orders lines n = Except.ok prog ∧ firstPass prog p = Except.ok p1 := by
  induction lines generalizing n p with
  | nil => cases h; exact ⟨[], rfl, rfl⟩
  | cons cmd rest ih =>
    rw [firstLoop] at h
    cases hl : parseLine (orders (n + 1)) (n + 1) cmd with
    | error e => rw [hl] at h; cases h
    | ok r =>
      rw [hl] at h
      cases r with
      | none =>
        obtain ⟨prog, h1, h2⟩ := ih h
        exact ⟨prog, by rw [parseFrom, hl]; exact h1, h2⟩
      | some instr =>
        simp only at h
        cases hs : firstPassStep p instr with
        | error e => rw [hs] at h; cases h
        | ok p2 =>
          rw [hs] at h
          obtain ⟨prog, h1, h2⟩ := ih h
          refine ⟨instr :: prog, ?_, ?_⟩
          · rw [parseFrom, hl]; simp only; rw [h1]
          · rw [firstPass, hs]; exact h2

theorem main_ok {orders : Nat → List (Char × destType)} {lines : List Str} {out : List Str}
    (h : main orders lines = ⟨out, none⟩) :
    ∃ prog p, parseFrom orders lines 0 = Except.ok prog ∧
      firstPass prog firstPassInit = Except.ok p ∧
      out = (secondPass p.instrs ⟨p.symbols, 0x0010⟩).1 := by
  rw [main] at h
  cases hf : firstLoop orders lines 0 ⟨[], 0, symbols⟩ with
  | error e => rw [hf] at h; simp at h
  | ok p =>
    rw [hf] at h
    obtain ⟨prog, h1, h2⟩ := parseFrom_of_firstLoop hf
    refine ⟨prog, p, h1, h2, ?_⟩
    simp only [Run.mk.injEq, and_true] at h
    exact h.symm

theorem length_filter_emittable (prog : List instruction) :
    (prog.filter emittable).length =
      prog.countP (fun i => decide (i.cmd = cmdType.aCmd)) +
        prog.countP (fun i => decide (i.cmd = cmdType.cCmd)) := by
  induction prog with
  | nil => rfl
  | cons i rest ih =>
    cases h : i.cmd <;> simp [List.filter_cons, List.countP_cons, emittable, h, ih] <;> omega

/-- C8.  When a run ends without error, the number of lines it prints is the
number of Address instructions plus the number of Computation instructions
among the instructions parsed from the source; Label instructions, and the
blank and comment-only lines for which `parse` sends nothing, add no line. -/
theorem output_count (orders : Nat → List (Char × destType)) (lines out : List Str)
    (h : main orders lines = ⟨out, none⟩) :
    ∃ prog, parseFrom orders lines 0 = Except.ok prog ∧
      out.length =
        prog.countP (fun i => decide (i.cmd = cmdType.aCmd)) +
          prog.countP (fun i => decide (i.cmd = cmdType.cCmd)) := by
  obtain ⟨prog, p, h1, h2, rfl⟩ := main_ok h
  refine ⟨prog, h1, ?_⟩
  rw [secondPass_length, (firstPass_spec_aux h2).1, length_filter_emittable]

theorem firstPass_error {prog : List instruction} {p : FirstPass} {e : Str}
    (h : firstPass prog p = Except.error e) : ∃ sym, e = dupMsg sym := by
  induction prog generalizing p with
  | nil => cases h
  | cons i rest ih =>
    rw [firstPass] at h
    cases hs : firstPassStep p i with
    | ok p1 => rw [hs] at h; exact ih h
    | error e1 =>
      rw [hs] at h
      cases h
      by_cases hl : i.cmd = cmdType.lCmd
      · rw [firstPassStep_label p i hl] at hs
        cases hg : mapGet p.symbols i.symbol with
        | none => rw [hg] at hs; cases hs
        | some v => rw [hg] at hs; cases hs; exact ⟨_, rfl⟩
      · rw [firstPassStep_emittable p i ((emittable_iff i).2 hl)] at hs
        cases hs

theorem firstPass_duplicate {pre post : List instruction} {lab : instruction} {p : FirstPass}
    (hl : lab.cmd = cmdType.lCmd)
    (hdup : mapGet p.symbols lab.symbol ≠ none ∨
      ∃ l2 ∈ pre, l2.cmd = cmdType.lCmd ∧ l2.symbol = lab.symbol) :
    ∃ sym, firstPass (pre ++ lab :: post) p = Except.error (dupMsg sym) := by
  cases hf : firstPass (pre ++ lab :: post) p with
  | error e =>
    obtain ⟨sym, rfl⟩ := firstPass_error hf
    exact ⟨sym, rfl⟩
  | ok p1 =>
    exfalso
    obtain ⟨p2, h1, h2⟩ := firstPass_append_ok hf
    obtain ⟨p3, h3, _⟩ := firstPass_cons_ok h2
    have hn := (firstPassStep_label_ok hl h3).1
    have hk := (firstPass_keys h1 lab.symbol).1 hn
    rcases hdup with hd | ⟨l2, hm, hc, hs⟩
    · exact hd hk.1
    · exact hk.2 (mem_labels.2 ⟨l2, hm, hc, hs⟩)

/-- C9.  When every line parses and some Label line carries a symbol that is
predefined or that an earlier Label line carries, the run halts with the
message `Symbol (...) already defined` and prints no word. -/
theorem duplicate_label_halts (orders : Nat → List (Char × destType)) (lines : List Str)
    (prog pre post : List instruction) (lab : instruction)
    (hparse : parseFrom orders lines 0 = Except.ok prog)
    (hp : prog = pre ++ lab :: post) (hl : lab.cmd = cmdType.lCmd)
    (hdup : mapGet symbols lab.symbol ≠ none ∨
      ∃ l2 ∈ pre, l2.cmd = cmdType.lCmd ∧ l2.symbol = lab.symbol) :
    ∃ sym, main orders lines = ⟨[], some (dupMsg sym)⟩ := by
  subst hp
  obtain ⟨sym, hs⟩ := @firstPass_duplicate pre post lab firstPassInit hl hdup
  refine ⟨sym, ?_⟩
  rw [main, firstLoop_of_parseFrom hparse]
  rw [firstPassInit] at hs
  rw [hs]


theorem output_count_witness :
    ∃ prog, parseFrom (fun _ => destinations)
        ["@2".toList, "(L)".toList, "".toList, "  // note".toList, "D=A".toList] 0 = Except.ok prog ∧
      ["0000000000000010".toList, "1110110000010000".toList].length =
        prog.countP (fun i => decide (i.cmd = cmdType.aCmd)) +
          prog.countP (fun i => decide (i.cmd = cmdType.cCmd)) :=
  output_count (fun _ => destinations)
    ["@2".toList, "(L)".toList, "".toList, "  // note".toList, "D=A".toList]
    ["0000000000000010".toList, "1110110000010000".toList] (by rfl)

theorem duplicate_label_halts_witness :
    ∃ sym, main (fun _ => destinations) ["(L)".toList, "@1".toList, "(L)".toList] =
      ⟨[], some (dupMsg sym)⟩ :=
  duplicate_label_halts (fun _ => destinations) ["(L)".toList, "@1".toList, "(L)".toList]
    [labelOf "L".toList, addressOf "1".toList, labelOf "L".toList]
    [labelOf "L".toList, addressOf "1".toList] [] (labelOf "L".toList) (by rfl) (by rfl) (by rfl)
    (Or.inr ⟨labelOf "L".toList, by simp, by rfl, by rfl⟩)

/-! ## The tables -/

/-- C13.  The table `commands` has 28 entries, and in each of them the bit `a`
is set exactly when the mnemonic contains the letter `M`. -/
theorem commands_a_bit :
    commands.length = 28
    ∧ ∀ kv ∈ commands, (kv.2.a = true ↔ 'M' ∈ kv.1) := by
  constructor
  · rfl
  · decide

theorem mapGet_eq_some_iff {β : Type} {m : List (Str × β)} (h : (m.map Prod.fst).Nodup)
    (s : Str) (v : β) : mapGet m s = some v ↔ (s, v) ∈ m := by
  induction m with
  | nil => simp [mapGet]
  | cons kv rest ih =>
    obtain ⟨k, w⟩ := kv
    simp only [List.map_cons, List.nodup_cons, List.mem_map, Prod.exists, exists_and_right,
      exists_eq_right, not_exists] at h
    rw [mapGet]
    by_cases hk : k = s
    · subst hk
      simp only [if_true, Option.some.injEq, List.mem_cons, Prod.mk.injEq, true_and]
      constructor
      · intro e; exact Or.inl e.symm
      · rintro (e | hm)
        · exact e.symm
        · exact absurd hm (h.1 v)
    · have hk' : ¬ s = k := fun e => hk e.symm
      simp only [if_neg hk, ih h.2, List.mem_cons, Prod.mk.injEq, hk', false_and, false_or]

theorem symbols_eq_predefinedSpec : symbols = predefinedSpec := by decide

theorem symbols_keys_nodup : (symbols.map Prod.fst).Nodup := by decide

theorem predefinedSpec_facts :
    ∀ kv ∈ predefinedSpec, Atoi kv.1 = none ∧ kv.2 < 32768 := by
  decide

/-- C14.  The fresh symbol table binds a name to an address exactly when the
specification lists the name with that address; and for each listed name, in
every state whose table binds it so (the fresh table among them), an Address
instruction on the name encodes to `0` followed by the 15 binary digits of the
address and leaves the table and the variable counter as they were. -/
theorem predefined_symbols :
    (∀ (s : Str) (v : Nat), mapGet symbols s = some v ↔ (s, v) ∈ predefinedSpec)
    ∧ ∀ kv ∈ predefinedSpec, mapGet symbols kv.1 = some kv.2
        ∧ ∀ (i : instruction) (g : Globals), i.cmd = cmdType.aCmd → i.symbol = kv.1 →
            mapGet g.symbols kv.1 = some kv.2 →
            toBinary i g = ('0' :: binary15 kv.2, g) := by
  constructor
  · intro s v
    rw [mapGet_eq_some_iff symbols_keys_nodup, symbols_eq_predefinedSpec]
  · intro kv hkv
    obtain ⟨ha, hv⟩ := predefinedSpec_facts kv hkv
    refine ⟨?_, ?_⟩
    · rw [mapGet_eq_some_iff symbols_keys_nodup, symbols_eq_predefinedSpec]
      exact hkv
    · intro i g hc hs hb
      rw [← hs] at ha hb
      rw [toBinary_address_bound hc ha hb, sprintf015b_small _ hv]

/-! ## Single assignment -/

/-- C15.  A step of the first pass that succeeds and a step of the second pass
leave every binding of the table as it was: a symbol bound before the step is
bound to the same address after it, and the table after the step is the table
before it or that table with one binding more, for a symbol that was absent. -/
theorem single_assignment :
    (∀ (p p1 : FirstPass) (instr : instruction), firstPassStep p instr = Except.ok p1 →
        (∀ (s : Str) (v : Nat), mapGet p.symbols s = some v → mapGet p1.symbols s = some v)
        ∧ (p1.symbols = p.symbols
            ∨ ∃ (s : Str) (v : Nat), mapGet p.symbols s = none ∧ p1.symbols = mapSet p.symbols s v))
    ∧ (∀ (instr : instruction) (g : Globals),
        (∀ (s : Str) (v : Nat), mapGet g.symbols s = some v →
          mapGet (toBinary instr g).2.symbols s = some v)
        ∧ ((toBinary instr g).2.symbols = g.symbols
            ∨ ∃ (s : Str) (v : Nat), mapGet g.symbols s = none ∧
                (toBinary instr g).2.symbols = mapSet g.symbols s v)) := by
  constructor
  · intro p p1 instr hs
    refine ⟨fun s v h => firstPassStep_mono hs h, ?_⟩
    by_cases hl : instr.cmd = cmdType.lCmd
    · obtain ⟨hn, rfl⟩ := firstPassStep_label_ok hl hs
      exact Or.inr ⟨instr.symbol, p.instrCount, hn, rfl⟩
    · rw [firstPassStep_emittable p instr ((emittable_iff instr).2 hl)] at hs
      cases hs
      exact Or.inl rfl
  · intro instr g
    refine ⟨fun s v h => toBinary_mono instr g h, ?_⟩
    rcases toBinary_globals instr g with e | ⟨_, _, hb, e⟩
    · exact Or.inl (by rw [e])
    · exact Or.inr ⟨instr.symbol, g.varAddr, hb, by rw [e]; rfl⟩

/-! ## Resolution of Address instructions -/

theorem toBinary_address_value {i : instruction} (g : Globals) (hc : i.cmd = cmdType.aCmd) :
    (toBinary i g).1 = '0' :: sprintf015b (addressValue i g) := by
  rw [toBinary, addressValue]
  simp only [hc]
  cases Atoi i.symbol with
  | some a => rfl
  | none =>
    cases mapGet g.symbols i.symbol with
    | some v => rfl
    | none => rfl

/-- C16, counterexample to the claim as stated.  The symbol `-5` is not a
non-negative integer literal, yet the encoder does not take it to the table:
after the label line `(-5)` has bound it to 0, the line `@-5` emits
`0-00000000000101`, and where it is absent it is neither bound nor given the
address 16.  And the counter does not always advance by one: in the program
`@x`, `@xx`, ... the 65520th variable receives 65535 and the next one 0. -/
theorem negative_literal_bypasses_table :
    main (fun _ => destinations) ["(-5)".toList, "@-5".toList] =
        ⟨["0-00000000000101".toList], none⟩
    ∧ toBinary (addressOf "-5".toList) ⟨symbols, 0x0010⟩ =
        ("0-00000000000101".toList, ⟨symbols, 0x0010⟩)
    ∧ mapGet symbols "-5".toList = none
    ∧ (secondPass (xVars 65521) ⟨symbols, 0x0010⟩).1[65519]? = some "01111111111111111".toList
    ∧ (secondPass (xVars 65521) ⟨symbols, 0x0010⟩).1[65520]? = some "0000000000000000".toList := by
  refine ⟨by rfl, by rfl, by rfl, ?_, ?_⟩
  · rw [secondPass_xVars 65521 65519 (by decide)]
    decide
  · rw [secondPass_xVars 65521 65520 (by decide)]
    decide

/-- C16, as amended.  For an Address instruction whose symbol `strconv.Atoi`
rejects, the encoder goes to the symbol table: a bound symbol emits `0` and its
address in binary on at least 15 digits (exactly the 15 binary digits below
32768) and changes nothing; an absent symbol is bound to the variable counter,
the counter advances by one modulo 65536 (by exactly one below 65535), and the
word is that of the address just given. -/
theorem address_resolution (i : instruction) (g : Globals) (hc : i.cmd = cmdType.aCmd)
    (ha : Atoi i.symbol = none) :
    (∀ v : Nat, mapGet g.symbols i.symbol = some v →
        toBinary i g = ('0' :: sprintf015b (v : Int), g)
        ∧ (v < 32768 → sprintf015b (v : Int) = binary15 v))
    ∧ (mapGet g.symbols i.symbol = none →
        toBinary i g = ('0' :: sprintf015b (g.varAddr : Int),
          ⟨mapSet g.symbols i.symbol g.varAddr, (g.varAddr + 1) % 65536⟩)
        ∧ (g.varAddr < 32768 → sprintf015b (g.varAddr : Int) = binary15 g.varAddr)
        ∧ (g.varAddr < 65535 → (g.varAddr + 1) % 65536 = g.varAddr + 1)) := by
  constructor
  · intro v hb
    exact ⟨toBinary_address_bound hc ha hb, fun hv => sprintf015b_small v hv⟩
  · intro hb
    refine ⟨toBinary_address_fresh hc ha hb, fun hv => sprintf015b_small _ hv, fun hv => ?_⟩
    exact Nat.mod_eq_of_lt (by omega)

theorem address_resolution_witness :
    toBinary (addressOf "i".toList) ⟨symbols, 0x0010⟩ =
      ('0' :: sprintf015b (16 : Int),
        ⟨mapSet symbols "i".toList 16, (16 + 1) % 65536⟩) :=
  ((address_resolution (addressOf "i".toList) ⟨symbols, 0x0010⟩ rfl (by decide)).2 (by decide)).1

/-! ## A second `;` -/

/-- C17 (the code departs from the claim).  On the line `0;JMP;x` the text after
the first `;` is `JMP;x`, which is no jump mnemonic, and `parse` does not halt:
it takes the text between the first and the second `;` and sends the
instruction of `0;JMP`. -/
theorem parse_second_semicolon (order : List (Char × destType)) (lineNum : Nat) :
    parseLine order lineNum "0;JMP;x".toList =
      Except.ok (some ⟨cmdType.cCmd, [], 0, ⟨f, t, f, t, f, t, f⟩, ⟨t, t, t⟩⟩) := by
  rfl

/-! ## The shape of the words -/

theorem binary15_shape (n : Nat) :
    (binary15 n).length = 15 ∧ ∀ c ∈ binary15 n, c = '0' ∨ c = '1' := by
  constructor
  · rw [binary15_eq_lowBits, lowBits_length]
  · intro c hc
    simp only [binary15, List.mem_map] at hc
    obtain ⟨k, _, rfl⟩ := hc
    cases decide (n / 2 ^ (14 - k) % 2 = 1) <;> simp [bitChar]

/-- C12, counterexample to the claim as stated.  The Address instructions of the
lines `@32768` and `@-3` are emittable; the first is encoded on 17 characters
and the word of the second holds a `-`. -/
theorem word_not_sixteen_bits :
    (toBinary (addressOf "32768".toList) ⟨symbols, 0x0010⟩).1 = "01000000000000000".toList
    ∧ (toBinary (addressOf "-3".toList) ⟨symbols, 0x0010⟩).1 = "0-00000000000011".toList
    ∧ parseLine destinations 1 "@32768".toList = Except.ok (some (addressOf "32768".toList))
    ∧ parseLine destinations 1 "@-3".toList = Except.ok (some (addressOf "-3".toList)) := by
  refine ⟨by rfl, by rfl, by rfl, by rfl⟩

/-- C12, as amended.  The word of a Computation instruction, and the word of
an Address instruction whose address (the literal, the bound address or the
variable counter, as the case may be) lies between 0 and 32767, has exactly 16
characters, each `0` or `1`. -/
theorem word_shape (i : instruction) (g : Globals)
    (h : i.cmd = cmdType.cCmd
      ∨ (i.cmd = cmdType.aCmd ∧ 0 ≤ addressValue i g ∧ addressValue i g ≤ 32767)) :
    (toBinary i g).1.length = 16 ∧ ∀ c ∈ (toBinary i g).1, c = '0' ∨ c = '1' := by
  rcases h with hc | ⟨hc, h0, h1⟩
  · have key : (toBinary i g).1 =
        [ '1', '1', '1', bitChar i.comp.a, bitChar i.comp.c1, bitChar i.comp.c2,
          bitChar i.comp.c3, bitChar i.comp.c4, bitChar i.comp.c5, bitChar i.comp.c6,
          bitChar (decide (i.dest &&& aDest ≠ 0)), bitChar (decide (i.dest &&& dDest ≠ 0)),
          bitChar (decide (i.dest &&& mDest ≠ 0)),
          bitChar i.jump.j1, bitChar i.jump.j2, bitChar i.jump.j3 ] := by
      simp only [toBinary, hc, binBool_String_eq, destType_String_eq]
      rfl
    rw [key]
    constructor
    · rfl
    · have hb : ∀ b : Bool, bitChar b = '0' ∨ bitChar b = '1' := by
        intro b; cases b <;> simp [bitChar]
      intro c hm
      simp only [List.mem_cons, List.mem_singleton, List.not_mem_nil, or_false] at hm
      rcases hm with rfl | rfl | rfl | rfl | rfl | rfl | rfl | rfl | rfl | rfl | rfl | rfl | rfl |
        rfl | rfl | rfl <;> first | exact hb _ | exact Or.inr rfl
  · obtain ⟨n, hn⟩ : ∃ n : Nat, addressValue i g = (n : Int) := ⟨(addressValue i g).toNat, by omega⟩
    have hlt : n < 32768 := by omega
    rw [toBinary_address_value g hc, hn, sprintf015b_small n hlt]
    obtain ⟨hl, hch⟩ := binary15_shape n
    constructor
    · simp [hl]
    · intro c hm
      rcases List.mem_cons.1 hm with rfl | hm
      · exact Or.inl rfl
      · exact hch c hm

theorem word_shape_witness :
    (toBinary (addressOf "2".toList) ⟨symbols, 0x0010⟩).1.length = 16
    ∧ ∀ c ∈ (toBinary (addressOf "2".toList) ⟨symbols, 0x0010⟩).1, c = '0' ∨ c = '1' :=
  word_shape (addressOf "2".toList) ⟨symbols, 0x0010⟩ (Or.inr ⟨rfl, by decide, by decide⟩)

/-! ## One word for one symbol -/

theorem secondPass_numeric (instrs : List instruction) (g : Globals) (idx : Nat)
    (instr : instruction) (a : Int) (hi : instrs[idx]? = some instr)
    (hc : instr.cmd = cmdType.aCmd) (ha : Atoi instr.symbol = some a) :
    (secondPass instrs g).1[idx]? = some ('0' :: sprintf015b a) := by
  induction instrs generalizing g idx with
  | nil => simp at hi
  | cons i rest ih =>
    cases idx with
    | zero =>
      simp only [List.getElem?_cons_zero, Option.some.injEq] at hi
      subst hi
      simp [secondPass, toBinary, hc, ha]
    | succ k =>
      simp only [List.getElem?_cons_succ] at hi
      simp only [secondPass, List.getElem?_cons_succ]
      exact ih _ k hi

theorem toBinary_address_binds {i : instruction} (g : Globals) (hc : i.cmd = cmdType.aCmd)
    (ha : Atoi i.symbol = none) :
    ∃ v : Nat, (toBinary i g).1 = '0' :: sprintf015b (v : Int) ∧
      mapGet (toBinary i g).2.symbols i.symbol = some v := by
  cases hb : mapGet g.symbols i.symbol with
  | some v =>
    refine ⟨v, ?_, ?_⟩
    · rw [toBinary_address_bound hc ha hb]
    · rw [toBinary_address_bound hc ha hb]; exact hb
  | none =>
    refine ⟨g.varAddr, ?_, ?_⟩
    · rw [toBinary_address_fresh hc ha hb]
    · rw [toBinary_address_fresh hc ha hb]; simp [mapGet]

theorem secondPass_head_later (i : instruction) (rest : List instruction) (g : Globals)
    (k : Nat) (i2 : instruction) (hc : i.cmd = cmdType.aCmd) (hi : rest[k]? = some i2)
    (hc2 : i2.cmd = cmdType.aCmd) (hs : i2.symbol = i.symbol) :
    (secondPass (i :: rest) g).1[k + 1]? = some (toBinary i g).1 := by
  simp only [secondPass, List.getElem?_cons_succ]
  cases ha : Atoi i.symbol with
  | some a =>
    rw [secondPass_numeric rest _ k i2 a hi hc2 (by rw [hs]; exact ha)]
    simp [toBinary, hc, ha]
  | none =>
    obtain ⟨v, h1, h2⟩ := toBinary_address_binds g hc ha
    rw [secondPass_bound rest _ i.symbol v ha h2 k i2 hi hc2 hs, h1]

theorem secondPass_same_symbol (instrs : List instruction) (g : Globals) (idx1 idx2 : Nat)
    (i1 i2 : instruction) (h1 : instrs[idx1]? = some i1) (h2 : instrs[idx2]? = some i2)
    (hc1 : i1.cmd = cmdType.aCmd) (hc2 : i2.cmd = cmdType.aCmd) (hs : i1.symbol = i2.symbol) :
    ∃ w, (secondPass instrs g).1[idx1]? = some w ∧ (secondPass instrs g).1[idx2]? = some w := by
  induction instrs generalizing g idx1 idx2 with
  | nil => simp at h1
  | cons i rest ih =>
    cases idx1 with
    | zero =>
      simp only [List.getElem?_cons_zero, Option.some.injEq] at h1
      subst h1
      cases idx2 with
      | zero => exact ⟨(toBinary i g).1, by simp [secondPass], by simp [secondPass]⟩
      | succ k =>
        simp only [List.getElem?_cons_succ] at h2
        exact ⟨(toBinary i g).1, by simp [secondPass],
          secondPass_head_later i rest g k i2 hc1 h2 hc2 hs.symm⟩
    | succ j =>
      simp only [List.getElem?_cons_succ] at h1
      cases idx2 with
      | zero =>
        simp only [List.getElem?_cons_zero, Option.some.injEq] at h2
        subst h2
        exact ⟨(toBinary i g).1, secondPass_head_later i rest g j i1 hc2 h1 hc1 hs,
          by simp [secondPass]⟩
      | succ k =>
        simp only [List.getElem?_cons_succ] at h2
        simp only [secondPass, List.getElem?_cons_succ]
        exact ih _ j k h1 h2

/-- C19.  In a run that ends without error, two Address instructions with the
same symbol text emit the same word, wherever they stand among the
instructions that emit a word. -/
theorem same_symbol_same_word (orders : Nat → List (Char × destType)) (lines out : List Str)
    (h : main orders lines = ⟨out, none⟩) :
    ∃ prog, parseFrom orders lines 0 = Except.ok prog
      ∧ out.length = (prog.filter emittable).length
      ∧ ∀ (idx1 idx2 : Nat) (i1 i2 : instruction),
          (prog.filter emittable)[idx1]? = some i1 → (prog.filter emittable)[idx2]? = some i2 →
          i1.cmd = cmdType.aCmd → i2.cmd = cmdType.aCmd → i1.symbol = i2.symbol →
          ∃ w, out[idx1]? = some w ∧ out[idx2]? = some w := by
  obtain ⟨prog, p, h1, h2, rfl⟩ := main_ok h
  have hi : p.instrs = prog.filter emittable := (firstPass_spec_aux h2).1
  refine ⟨prog, h1, ?_, ?_⟩
  · rw [secondPass_length, hi]
  · intro idx1 idx2 i1 i2 e1 e2 hc1 hc2 hs
    rw [← hi] at e1 e2
    exact secondPass_same_symbol p.instrs _ idx1 idx2 i1 i2 e1 e2 hc1 hc2 hs

theorem same_symbol_same_word_witness :
    ∃ prog, parseFrom (fun _ => destinations) ["@i".toList, "(L)".toList, "0".toList, "@i".toList] 0 =
        Except.ok prog
      ∧ ["0000000000010000".toList, "1110101010000000".toList, "0000000000010000".toList].length =
          (prog.filter emittable).length
      ∧ ∀ (idx1 idx2 : Nat) (i1 i2 : instruction),
          (prog.filter emittable)[idx1]? = some i1 → (prog.filter emittable)[idx2]? = some i2 →
          i1.cmd = cmdType.aCmd → i2.cmd = cmdType.aCmd → i1.symbol = i2.symbol →
          ∃ w, ["0000000000010000".toList, "1110101010000000".toList,
                "0000000000010000".toList][idx1]? = some w ∧
              ["0000000000010000".toList, "1110101010000000".toList,
                "0000000000010000".toList][idx2]? = some w :=
  same_symbol_same_word (fun _ => destinations)
    ["@i".toList, "(L)".toList, "0".toList, "@i".toList]
    ["0000000000010000".toList, "1110101010000000".toList, "0000000000010000".toList] (by rfl)

/-! ## A destination letter given twice -/

theorem count_dropWhile {p : Char → Bool} {k : Char} (hk : p k = false) (l : Str) :
    (l.dropWhile p).count k = l.count k := by
  induction l with
  | nil => rfl
  | cons c r ih =>
    rw [List.dropWhile_cons]
    by_cases hc : p c = true
    · have hne : c ≠ k := by rintro rfl; rw [hk] at hc; cases hc
      rw [if_pos hc, ih, List.count_cons_of_ne (Ne.symm hne)]
    · rw [if_neg hc]

theorem Count_Trim {cutset : Str} {k : Char} (hk : k ∉ cutset) (s : Str) :
    Count (Trim s cutset) k = Count s k := by
  have hp : (fun c => decide (c ∈ cutset)) k = false := by simpa using hk
  rw [Count, Count, Trim, List.count_reverse, count_dropWhile hp, List.count_reverse,
    count_dropWhile hp]

theorem destLoop_duplicate (lineNum : Nat) (order : List (Char × destType)) (d : destType)
    (dest : Str) (k : Char) (hk : k ∈ order.map Prod.fst) (hc : 1 < Count dest k) :
    ∃ k', destLoop lineNum order d dest = Except.error (multipleMsg lineNum k') := by
  induction order generalizing d dest with
  | nil => simp at hk
  | cons kv rest ih =>
    obtain ⟨k0, v0⟩ := kv
    rw [destLoop]
    by_cases h1 : Count dest k0 = 1
    · have hne : k ≠ k0 := by rintro rfl; omega
      have hk' : k ∈ rest.map Prod.fst := by
        simp only [List.map_cons, List.mem_cons] at hk
        rcases hk with e | hk
        · exact absurd e hne
        · exact hk
      rw [if_pos h1]
      exact ih _ _ hk' (by rw [Count_Trim (by simpa using hne)]; exact hc)
    · rw [if_neg h1]
      by_cases h2 : Count dest k0 > 1
      · rw [if_pos h2]
        exact ⟨k0, rfl⟩
      · have hne : k ≠ k0 := by rintro rfl; omega
        have hk' : k ∈ rest.map Prod.fst := by
          simp only [List.map_cons, List.mem_cons] at hk
          rcases hk with e | hk
          · exact absurd e hne
          · exact hk
        rw [if_neg h2]
        exact ih _ _ hk' (by rw [Count_Trim (by simpa using hne)]; exact hc)

theorem parseLine_duplicate_destination (order : List (Char × destType)) (lineNum : Nat)
    (cmd a b : Str) (k : Char) (ho : order.Perm destinations)
    (hs : Trim (stripComment cmd) whitespace = a ++ '=' :: b) (ha : '=' ∉ a)
    (h1 : HasPrefix (a ++ '=' :: b) "@".toList = false)
    (h2 : HasPrefix (a ++ '=' :: b) "(".toList = false)
    (hk : k ∈ ['A', 'D', 'M']) (hc : 1 < Count a k) :
    ∃ k', parseLine order lineNum cmd = Except.error (multipleMsg lineNum k') := by
  have hkw : k ∉ whitespace := by
    simp only [List.mem_cons, List.mem_singleton, List.not_mem_nil, or_false] at hk
    rcases hk with rfl | rfl | rfl <;> decide
  have hko : k ∈ order.map Prod.fst := by
    have : k ∈ destinations.map Prod.fst := by
      simp only [List.mem_cons, List.mem_singleton, List.not_mem_nil, or_false] at hk
      rcases hk with rfl | rfl | rfl <;> decide
    exact (ho.map Prod.fst).mem_iff.2 this
  have hsplit : Split (a ++ '=' :: b) '=' = a :: Split b '=' := Split_append ha b
  have hlen : (Split (a ++ '=' :: b) '=').length > 1 := by
    rw [hsplit]
    cases hb : Split b '=' with
    | nil => exact absurd hb (Split_ne_nil b '=')
    | cons x y => simp
  obtain ⟨k', hloop⟩ := destLoop_duplicate lineNum order 0 (Trim a whitespace) k hko
    (by rw [Count_Trim hkw]; exact hc)
  have hdest : parseDest order lineNum (a ++ '=' :: b) =
      Except.error (multipleMsg lineNum k') := by
    rw [parseDest, if_pos hlen, hsplit, List.getD_cons_zero, hloop]
  have hlen0 : ¬ (a ++ '=' :: b).length = 0 := by simp
  refine ⟨k', ?_⟩
  rw [parseLine]
  simp only [hs, if_neg hlen0, h1, h2, Bool.false_eq_true, if_false, parseComputation, hdest]

theorem firstLoop_halts_at (orders : Nat → List (Char × destType)) (pre post : List Str)
    (cmd : Str) (n : Nat) (p : FirstPass) (e : Str)
    (h : parseLine (orders (n + pre.length + 1)) (n + pre.length + 1) cmd = Except.error e) :
    ∃ e', firstLoop orders (pre ++ cmd :: post) n p = Except.error e' := by
  induction pre generalizing n p with
  | nil =>
    simp only [List.length_nil, Nat.add_zero] at h
    rw [List.nil_append, firstLoop, h]
    exact ⟨e, rfl⟩
  | cons c rest ih =>
    have hn : n + (c :: rest).length + 1 = (n + 1) + rest.length + 1 := by
      simp only [List.length_cons]; omega
    rw [hn] at h
    rw [List.cons_append, firstLoop]
    cases hl : parseLine (orders (n + 1)) (n + 1) c with
    | error e1 => exact ⟨e1, rfl⟩
    | ok r =>
      cases r with
      | none => exact ih (n + 1) p h
      | some instr =>
        simp only
        cases hstep : firstPassStep p instr with
        | error e1 => exact ⟨e1, rfl⟩
        | ok p1 => exact ih (n + 1) p1 h

/-- C11.  Take a computation line with a `=` in which one of the letters `A`,
`D`, `M` occurs more than once before the first `=`.  Whatever the order in
which `destinations` is visited, `parse` halts on the line with the message
`destination ... specified multiple times`, and a run whose source holds such a
line prints no word and ends on an error. -/
theorem duplicate_destination_halts (orders : Nat → List (Char × destType))
    (pre post : List Str) (cmd a b : Str) (k : Char)
    (ho : ∀ n, (orders n).Perm destinations)
    (hs : Trim (stripComment cmd) whitespace = a ++ '=' :: b) (ha : '=' ∉ a)
    (h1 : HasPrefix (a ++ '=' :: b) "@".toList = false)
    (h2 : HasPrefix (a ++ '=' :: b) "(".toList = false)
    (hk : k ∈ ['A', 'D', 'M']) (hc : 1 < Count a k) :
    (∃ k', parseLine (orders (pre.length + 1)) (pre.length + 1) cmd =
        Except.error (multipleMsg (pre.length + 1) k'))
    ∧ ∃ e, main orders (pre ++ cmd :: post) = ⟨[], some e⟩ := by
  obtain ⟨k', hp⟩ := parseLine_duplicate_destination (orders (pre.length + 1)) (pre.length + 1)
    cmd a b k (ho _) hs ha h1 h2 hk hc
  refine ⟨⟨k', hp⟩, ?_⟩
  obtain ⟨e, he⟩ := firstLoop_halts_at orders pre post cmd 0 ⟨[], 0, symbols⟩ _
    (by rw [Nat.zero_add]; exact hp)
  exact ⟨e, by rw [main, he]⟩

theorem duplicate_destination_halts_witness :
    (∃ k', parseLine destinations 2 "AA=1".toList = Except.error (multipleMsg 2 k'))
    ∧ ∃ e, main (fun _ => destinations) ["@1".toList, "AA=1".toList, "D=A".toList] =
        ⟨[], some e⟩ :=
  duplicate_destination_halts (fun _ => destinations) ["@1".toList] ["D=A".toList]
    "AA=1".toList "AA".toList "1".toList 'A' (fun _ => List.Perm.refl _) (by rfl) (by decide)
    (by rfl) (by rfl) (by decide) (by decide)

/-! ## Line numbers in the diagnostics -/

theorem lineMsg_form (lineNum : Nat) (text : String) :
    ∃ rest : Str, lineMsg lineNum text = "line ".toList ++ sprintfD lineNum ++ ": ".toList ++ rest :=
  ⟨text.toList, rfl⟩

theorem destLoop_error_form {lineNum : Nat} {order : List (Char × destType)} {d : destType}
    {dest e : Str} (h : destLoop lineNum order d dest = Except.error e) :
    ∃ rest : Str, e = "line ".toList ++ sprintfD lineNum ++ ": ".toList ++ rest := by
  induction order generalizing d dest with
  | nil => cases h
  | cons kv tail ih =>
    obtain ⟨k, v⟩ := kv
    rw [destLoop] at h
    split at h
    · exact ih h
    · split at h
      · cases h
        exact ⟨"destination %!s(int32=".toList ++ sprintfD k.toNat
          ++ ") specified multiple times".toList, by simp [List.append_assoc]⟩
      · exact ih h

theorem parseDest_error_form {order : List (Char × destType)} {lineNum : Nat} {s e : Str}
    (h : parseDest order lineNum s = Except.error e) :
    ∃ rest : Str, e = "line ".toList ++ sprintfD lineNum ++ ": ".toList ++ rest := by
  rw [parseDest] at h
  split at h
  · split at h
    · rename_i e1 hl
      cases h
      exact destLoop_error_form hl
    · split at h
      · cases h; exact lineMsg_form _ _
      · cases h
  · cases h

theorem parseJump_error_form {lineNum : Nat} {comp s e : Str}
    (h : parseJump lineNum comp s = Except.error e) :
    ∃ rest : Str, e = "line ".toList ++ sprintfD lineNum ++ ": ".toList ++ rest := by
  rw [parseJump] at h
  split at h
  · split at h
    · cases h; exact lineMsg_form _ _
    · split at h
      · cases h; exact lineMsg_form _ _
      · cases h
  · cases h

theorem parseComputation_error_form {order : List (Char × destType)} {lineNum : Nat} {s e : Str}
    (h : parseComputation order lineNum s = Except.error e) :
    ∃ rest : Str, e = "line ".toList ++ sprintfD lineNum ++ ": ".toList ++ rest := by
  rw [parseComputation] at h
  split at h
  · rename_i e1 hd
    cases h
    exact parseDest_error_form hd
  · split at h
    · rename_i e1 hj
      cases h
      exact parseJump_error_form hj
    · split at h
      · cases h; exact lineMsg_form _ _
      · cases h

theorem parseLine_error_form {order : List (Char × destType)} {lineNum : Nat} {cmd e : Str}
    (h : parseLine order lineNum cmd = Except.error e) :
    ∃ rest : Str, e = "line ".toList ++ sprintfD lineNum ++ ": ".toList ++ rest := by
  rw [parseLine] at h
  split at h
  · cases h
  · split at h
    · split at h
      · cases h; exact lineMsg_form _ _
      · split at h
        · cases h; exact lineMsg_form _ _
        · cases h
    · split at h
      · split at h
        · cases h; exact lineMsg_form _ _
        · split at h
          · cases h; exact lineMsg_form _ _
          · split at h
            · cases h; exact lineMsg_form _ _
            · cases h
      · split at h
        · rename_i e1 hc
          cases h
          exact parseComputation_error_form hc
        · cases h

theorem firstPassStep_error {p : FirstPass} {instr : instruction} {e : Str}
    (h : firstPassStep p instr = Except.error e) : e = dupMsg instr.symbol := by
  by_cases hl : instr.cmd = cmdType.lCmd
  · rw [firstPassStep_label p instr hl] at h
    cases hg : mapGet p.symbols instr.symbol with
    | none => rw [hg] at h; cases h
    | some v => rw [hg] at h; cases h; rfl
  · rw [firstPassStep_emittable p instr ((emittable_iff instr).2 hl)] at h
    cases h

theorem firstLoop_error {orders : Nat → List (Char × destType)} {lines : List Str} {n : Nat}
    {p : FirstPass} {e : Str} (h : firstLoop orders lines n p = Except.error e) :
    (∃ (idx : Nat) (cmd : Str) (instr : instruction), lines[idx]? = some cmd ∧
        parseLine (orders (n + idx + 1)) (n + idx + 1) cmd = Except.ok (some instr) ∧
        instr.cmd = cmdType.lCmd ∧ e = dupMsg instr.symbol)
    ∨ (∃ (idx : Nat) (cmd : Str), lines[idx]? = some cmd ∧
        parseLine (orders (n + idx + 1)) (n + idx + 1) cmd = Except.error e) := by
  induction lines generalizing n p with
  | nil => cases h
  | cons c rest ih =>
    have shift : ∀ idx : Nat, n + 1 + idx + 1 = n + (idx + 1) + 1 := fun idx => by omega
    have lift : ((∃ (idx : Nat) (cmd : Str) (instr : instruction), rest[idx]? = some cmd ∧
          parseLine (orders (n + 1 + idx + 1)) (n + 1 + idx + 1) cmd = Except.ok (some instr) ∧
          instr.cmd = cmdType.lCmd ∧ e = dupMsg instr.symbol)
        ∨ (∃ (idx : Nat) (cmd : Str), rest[idx]? = some cmd ∧
          parseLine (orders (n + 1 + idx + 1)) (n + 1 + idx + 1) cmd = Except.error e)) →
        ((∃ (idx : Nat) (cmd : Str) (instr : instruction), (c :: rest)[idx]? = some cmd ∧
          parseLine (orders (n + idx + 1)) (n + idx + 1) cmd = Except.ok (some instr) ∧
          instr.cmd = cmdType.lCmd ∧ e = dupMsg instr.symbol)
        ∨ (∃ (idx : Nat) (cmd : Str), (c :: rest)[idx]? = some cmd ∧
          parseLine (orders (n + idx + 1)) (n + idx + 1) cmd = Except.error e)) := by
      rintro (⟨idx, cmd, instr, h1, h2, h3, h4⟩ | ⟨idx, cmd, h1, h2⟩)
      · left
        refine ⟨idx + 1, cmd, instr, by simpa using h1, ?_, h3, h4⟩
        rw [← shift]; exact h2
      · right
        refine ⟨idx + 1, cmd, by simpa using h1, ?_⟩
        rw [← shift]; exact h2
    rw [firstLoop] at h
    cases hl : parseLine (orders (n + 1)) (n + 1) c with
    | error e1 =>
      rw [hl] at h
      cases h
      exact Or.inr ⟨0, c, List.getElem?_cons_zero, hl⟩
    | ok r =>
      rw [hl] at h
      cases r with
      | none => exact lift (ih h)
      | some instr =>
        simp only at h
        cases hs : firstPassStep p instr with
        | error e1 =>
          rw [hs] at h
          cases h
          have hmsg := firstPassStep_error hs
          have hlab : instr.cmd = cmdType.lCmd := by
            by_contra hne
            rw [firstPassStep_emittable p instr ((emittable_iff instr).2 hne)] at hs
            cases hs
          exact Or.inl ⟨0, c, instr, List.getElem?_cons_zero, hl, hlab, hmsg⟩
        | ok p1 =>
          rw [hs] at h
          exact lift (ih h)

/-- C18, counterexample to the claim as stated.  On the two lines `(L)`, `(L)`
the run halts with `Symbol (L) already defined`, a message without any digit:
it does not give the number of the offending line. -/
theorem duplicate_label_message_has_no_line :
    main (fun _ => destinations) ["(L)".toList, "(L)".toList] =
        ⟨[], some "Symbol (L) already defined".toList⟩
    ∧ ∀ c ∈ "Symbol (L) already defined".toList, isDigit c = false := by
  constructor
  · rfl
  · decide

/-- C18, as amended.  When a run halts, either the parser halted on a line, and
then the message starts with `line N: ` where `N` is the number of that line
counted from 1 over all lines read, blank and comment lines included; or the
first loop halted on a Label line whose symbol was already bound, and then the
message is `Symbol (sym) already defined` for the symbol of that line, without
line number. -/
theorem error_line_number (orders : Nat → List (Char × destType)) (lines : List Str) (e : Str)
    (h : (main orders lines).stderr = some e) :
    (∃ (idx : Nat) (cmd : Str) (rest : Str), lines[idx]? = some cmd ∧
        parseLine (orders (idx + 1)) (idx + 1) cmd = Except.error e ∧
        e = "line ".toList ++ sprintfD (idx + 1) ++ ": ".toList ++ rest)
    ∨ (∃ (idx : Nat) (cmd : Str) (instr : instruction), lines[idx]? = some cmd ∧
        parseLine (orders (idx + 1)) (idx + 1) cmd = Except.ok (some instr) ∧
        instr.cmd = cmdType.lCmd ∧ e = dupMsg instr.symbol) := by
  rw [main] at h
  cases hf : firstLoop orders lines 0 ⟨[], 0, symbols⟩ with
  | ok p => rw [hf] at h; simp at h
  | error e1 =>
    rw [hf] at h
    simp only [Option.some.injEq] at h
    subst h
    rcases firstLoop_error hf with ⟨idx, cmd, instr, h1, h2, h3, h4⟩ | ⟨idx, cmd, h1, h2⟩
    · right
      rw [Nat.zero_add] at h2
      exact ⟨idx, cmd, instr, h1, h2, h3, h4⟩
    · left
      rw [Nat.zero_add] at h2
      obtain ⟨rest, hr⟩ := parseLine_error_form h2
      exact ⟨idx, cmd, rest, h1, h2, hr⟩

theorem error_line_number_witness :
    (∃ (idx : Nat) (cmd : Str) (rest : Str),
        ["@1".toList, "".toList, "@".toList][idx]? = some cmd ∧
        parseLine destinations (idx + 1) cmd =
          Except.error "line 3: address or label name expected".toList ∧
        "line 3: address or label name expected".toList =
          "line ".toList ++ sprintfD (idx + 1) ++ ": ".toList ++ rest)
    ∨ (∃ (idx : Nat) (cmd : Str) (instr : instruction),
        ["@1".toList, "".toList, "@".toList][idx]? = some cmd ∧
        parseLine destinations (idx + 1) cmd = Except.ok (some instr) ∧
        instr.cmd = cmdType.lCmd ∧
        "line 3: address or label name expected".toList = dupMsg instr.symbol) :=
  error_line_number (fun _ => destinations) ["@1".toList, "".toList, "@".toList]
    "line 3: address or label name expected".toList (by rfl)

/-! ## No slice or index of the parser is out of range -/

theorem Index_le_length (s sep : Str) : Index s sep ≤ (s.length : Int) := by
  induction s with
  | nil =>
    rw [Index]
    split <;> simp
  | cons c r ih =>
    rw [Index]
    simp only [List.length_cons, Nat.cast_add, Nat.cast_one]
    split
    · omega
    · split <;> omega

theorem Index_ge (s sep : Str) : -1 ≤ Index s sep := by
  induction s with
  | nil =>
    rw [Index]
    split <;> simp
  | cons c r ih =>
    rw [Index]
    split
    · omega
    · split <;> omega

theorem Index_paren_pos {s : Str} (h : HasPrefix s "(".toList = true) :
    Index s ")".toList ≠ 0 := by
  cases s with
  | nil => simp [HasPrefix] at h
  | cons c r =>
    have e1 : ("(".toList : Str) = ['('] := rfl
    have e2 : (")".toList : Str) = [')'] := rfl
    rw [e1, HasPrefix] at h
    have hc : c = '(' := by
      by_contra hne
      rw [if_neg hne] at h
      cases h
    subst hc
    rw [e2, Index]
    have hp : HasPrefix ('(' :: r) [')'] = false := by
      rw [HasPrefix, if_neg (by decide)]
    rw [hp]
    have := Index_ge r [')']
    simp only [Bool.false_eq_true, if_false]
    split <;> omega

theorem Split_head_length (s : Str) (sep : Char) :
    ((Split s sep).getD 0 []).length ≤ s.length := by
  induction s with
  | nil => simp [Split]
  | cons c r ih =>
    rw [Split]
    split
    · simp
    · cases hs : Split r sep with
      | nil => simp
      | cons piece pieces =>
        rw [hs] at ih
        simp only [List.getD_cons_zero, List.length_cons] at ih ⊢
        omega

theorem sliceChecked_of_le (s : Str) (lo : Nat) (h : lo ≤ s.length) :
    sliceChecked s (lo : Int) (s.length : Int) = some (s.drop lo) := by
  rw [sliceChecked, if_pos ⟨by omega, by omega, le_refl _⟩]
  simp

theorem stripCommentChecked_eq (cmd : Str) : stripCommentChecked cmd = some (stripComment cmd) := by
  rw [stripCommentChecked, stripComment]
  split
  · rename_i h
    rw [sliceChecked, if_pos ⟨le_refl _, h, Index_le_length _ _⟩]
    simp
  · rfl

theorem indexChecked_of_length {tokens : List Str} (h : tokens.length > 1) :
    indexChecked tokens 0 = some (tokens.getD 0 []) ∧
      indexChecked tokens 1 = some (tokens.getD 1 []) := by
  match tokens, h with
  | a :: b :: rest, _ => exact ⟨by simp [indexChecked], by simp [indexChecked]⟩

theorem parseDestChecked_eq (order : List (Char × destType)) (lineNum : Nat) (s : Str) :
    parseDestChecked order lineNum s = some (parseDest order lineNum s) := by
  rw [parseDestChecked, parseDest]
  split
  · rename_i hlen
    obtain ⟨h0, h1⟩ := indexChecked_of_length hlen
    rw [h0, h1]
    simp only
    cases destLoop lineNum order 0 (Trim ((Split s '=').getD 0 []) whitespace) with
    | error e => rfl
    | ok r =>
      obtain ⟨d, dest⟩ := r
      simp only
      split
      · rfl
      · rw [sliceChecked_of_le s _ (Split_head_length s '=')]
  · rfl

theorem parseJumpChecked_eq (lineNum : Nat) (comp s : Str) :
    parseJumpChecked lineNum comp s = some (parseJump lineNum comp s) := by
  rw [parseJumpChecked, parseJump]
  split
  · rename_i hlen
    obtain ⟨h0, h1⟩ := indexChecked_of_length hlen
    rw [h0, h1]
    simp only
    split
    · rfl
    · cases mapGet jumps (Trim ((Split s ';').getD 1 []) whitespace) <;> rfl
  · rfl

theorem parseComputationChecked_eq (order : List (Char × destType)) (lineNum : Nat) (s : Str) :
    parseComputationChecked order lineNum s = some (parseComputation order lineNum s) := by
  rw [parseComputationChecked, parseComputation, parseDestChecked_eq]
  cases parseDest order lineNum s with
  | error e => rfl
  | ok r =>
    obtain ⟨d, comp, s1⟩ := r
    simp only
    rw [parseJumpChecked_eq]
    cases parseJump lineNum comp s1 with
    | error e => rfl
    | ok r2 =>
      obtain ⟨comp1, j⟩ := r2
      simp only
      cases mapGet commands (if comp1.length = 0 then s1 else comp1) <;> rfl

/-- C20.  The line parser written with the bounds checks of the Go run time on
`cmd[:i]`, `s[1:]`, `s[1:i]`, `tokens[0]`, `tokens[1]` and `s[len(tokens[0]):]`
never takes the panic branch: on every line, for every order of visit and
every line number, it returns what the parser without checks returns, that is
an instruction, nothing, or a message of `halt`. -/
theorem parseLine_never_panics (order : List (Char × destType)) (lineNum : Nat) (cmd : Str) :
    parseLineChecked order lineNum cmd = some (parseLine order lineNum cmd) := by
  rw [parseLineChecked, stripCommentChecked_eq, parseLine]
  simp only
  split
  · rfl
  · rename_i hlen
    have hpos : 1 ≤ (Trim (stripComment cmd) whitespace).length := by omega
    split
    · have hs := sliceChecked_of_le (Trim (stripComment cmd) whitespace) 1 hpos
      simp only [Nat.cast_one] at hs
      rw [hs]
      simp only
      split_ifs <;> rfl
    · split
      · rename_i hpar
        split
        · rfl
        · rename_i hidx
          have h1 := Index_ge (Trim (stripComment cmd) whitespace) ")".toList
          have h2 := Index_le_length (Trim (stripComment cmd) whitespace) ")".toList
          have h3 := Index_paren_pos hpar
          rw [sliceChecked, if_pos ⟨by omega, by omega, h2⟩]
          simp only [Int.toNat_one]
          split_ifs <;> rfl
      · rw [parseComputationChecked_eq]
        cases parseComputation order lineNum (Trim (stripComment cmd) whitespace) <;> rfl

end Hack
